import Mathlib

/-!
# Verification of the collty-server hybrid search pipeline

A shallow embedding, in Lean 4, of the pure core of `src/server.js`:
query normalization, exact-phrase extraction, keyword features, hybrid
score fusion, deduplication, stable identity (SHA-256 truncated to 32 hex
characters), MMR diversification, and the `/search` / `/searchPaged`
post-retrieval pipelines.  Scores are modelled as rationals (the source
uses IEEE doubles; all claim-relevant constants are exact decimals), and
JavaScript strings as Lean `String` with explicit character-level
operations.  `toLowerCase`/`toUpperCase` are modelled on the ASCII range,
which is exact for every claim input and for tokenization in general
(non-ASCII characters are token separators both in JS and the model).
-/

set_option maxRecDepth 8192

namespace Collty

/- Batteries marks the rational operations irreducible; the claim
scenarios are settled by evaluation, so restore unfolding inside this
development. -/
attribute [local semireducible] Rat.add Rat.mul Rat.inv Rat.sub Rat.ofScientific

/-! ## Character and string primitives (JS semantics) -/

/-- Characters kept by the tokenizer split `/[^a-z0-9]+/` (applied to
lowercased text). -/
def isTokChar (c : Char) : Bool :=
  ('a' ≤ c && c ≤ 'z') || ('0' ≤ c && c ≤ '9')

/-- Characters kept by the case-insensitive split `/[^a-z0-9]+/i`. -/
def isAlnumI (c : Char) : Bool :=
  ('a' ≤ c && c ≤ 'z') || ('A' ≤ c && c ≤ 'Z') || ('0' ≤ c && c ≤ '9')

/-- JS regex word character `\w` = `[A-Za-z0-9_]`. -/
def isWordChar (c : Char) : Bool :=
  isAlnumI c || c = '_'

/-- Whitespace trimmed by JS `String.prototype.trim` (ASCII part; the
model also covers the common Unicode spaces used by JS). -/
def isJsWs (c : Char) : Bool :=
  c = ' ' || c = '\t' || c = '\n' || c = '\r' ||
  c = '\x0b' || c = '\x0c' || c = ' ' || c = ' ' || c = ' '

/-- `String.prototype.trim` on a character list. -/
def jsTrimL (s : List Char) : List Char :=
  ((s.dropWhile isJsWs).reverse.dropWhile isJsWs).reverse

/-- `String.prototype.trim`. -/
def jsTrim (s : String) : String :=
  String.mk (jsTrimL s.data)

/-- `String.prototype.toLowerCase` (ASCII). -/
def jsLower (s : String) : String :=
  String.mk (s.data.map Char.toLower)

/-- `String.prototype.toUpperCase` (ASCII). -/
def jsUpper (s : String) : String :=
  String.mk (s.data.map Char.toUpper)

/-- Maximal runs of characters satisfying `p` (the pieces of a JS
`split` on the complementary character class, with empties removed). -/
def runsOf (p : Char → Bool) (s : List Char) : List (List Char) :=
  (s.splitOnP (fun c => !p c)).filter (· ≠ [])

/-- `s.toLowerCase().split(/[^a-z0-9]+/).filter(Boolean)` — the
tokenizer used throughout the ranking code. -/
def jsTokens (s : String) : List String :=
  (runsOf isTokChar (s.data.map Char.toLower)).map String.mk

/-- `pat` occurs as a contiguous sublist of `s`. -/
def listInfix (pat : List Char) : List Char → Bool
  | [] => pat.isPrefixOf []
  | c :: rest => pat.isPrefixOf (c :: rest) || listInfix pat rest

/-- Substring containment, JS `String.prototype.includes`. -/
def jsIncludes (needle hay : String) : Bool :=
  listInfix needle.data hay.data

/-- JS `<` on strings (lexicographic on UTF-16 code units; the model
compares code points, which agrees on the hex/ASCII strings involved). -/
def jsStrLt : List Char → List Char → Bool
  | [], [] => false
  | [], _ :: _ => true
  | _ :: _, [] => false
  | x :: xs, y :: ys =>
    if x.toNat < y.toNat then true
    else if y.toNat < x.toNat then false
    else jsStrLt xs ys

/-! ## Query normalizer (`normalizeQuery`, server.js:3353-3362) -/

/-- The stopword set of `normalizeQuery` / `extractExactPhrases`. -/
def STOPWORDS : List String :=
  ["i", "me", "my", "we", "our", "need", "want", "a", "an", "the",
   "team", "for", "to", "please", "looking", "search", "find", "build", "hire"]

/-- One step of a JS global regex replace of a literal pattern `pat`
bracketed by `\b` word-boundary assertions.  `prevW` records whether the
character just before the current position (in the original subject) is
a word character. -/
def wbReplaceAux (pat rep : List Char) (headW lastW : Bool) :
    Nat → Bool → List Char → List Char
  | 0, _, s => s
  | _ + 1, _, [] => []
  | fuel + 1, prevW, c :: rest =>
    if pat ≠ [] && pat.isPrefixOf (c :: rest) && (prevW != headW) &&
        (lastW != isWordChar (((c :: rest).drop pat.length).headD ' '))
    then rep ++ wbReplaceAux pat rep headW lastW fuel lastW ((c :: rest).drop pat.length)
    else c :: wbReplaceAux pat rep headW lastW fuel (isWordChar c) rest

/-- JS `s.replace(/\bPAT\b/g, rep)` for a literal pattern. -/
def wbReplaceAll (pat rep s : List Char) : List Char :=
  wbReplaceAux pat rep (isWordChar (pat.headD ' ')) (isWordChar (pat.getLastD ' '))
    s.length false s

theorem dropWhile_length_le (p : α → Bool) (l : List α) :
    (l.dropWhile p).length ≤ l.length := by
  induction l with
  | nil => simp [List.dropWhile]
  | cons x xs ih =>
    simp only [List.dropWhile]
    cases p x <;> simp; omega

/-- Fuel-driven worker for `squashRuns` (structural recursion so that
the kernel can evaluate it; `fuel = s.length` always suffices). -/
def squashRunsAux (p : Char → Bool) (rep : Char) : Nat → List Char → List Char
  | 0, s => s
  | _ + 1, [] => []
  | fuel + 1, c :: rest =>
    if p c then rep :: squashRunsAux p rep fuel (rest.dropWhile p)
    else c :: squashRunsAux p rep fuel rest

/-- JS `s.replace(/CLASS+/g, rep)`: each maximal run of characters in
the class becomes one replacement character. -/
def squashRuns (p : Char → Bool) (rep : Char) (s : List Char) : List Char :=
  squashRunsAux p rep s.length s

/-- JS `s.replace(/[-_]+/g, ' ')`. -/
def squashDashes (s : List Char) : List Char :=
  squashRuns (fun d => d = '-' || d = '_') ' ' s

/-- The `base` string of `normalizeQuery`: lowercase, unify `ci/cd` and
`cicd` to `ci cd`, then turn hyphen/underscore runs into spaces. -/
def normBase (q : String) : List Char :=
  let lc := q.data.map Char.toLower
  let b1 := wbReplaceAll "ci/cd".data "ci cd".data lc
  let b2 := wbReplaceAll "cicd".data "ci cd".data b1
  squashDashes b2

/-- The stopword-filtered token list of `normalizeQuery`. -/
def normFiltered (q : String) : List String :=
  ((runsOf isTokChar (normBase q)).map String.mk).filter
    (fun t => !STOPWORDS.contains t)

/-- `normalizeQuery(q)` (server.js:3354-3362):
`filtered.join(' ').trim() || base.trim() || String(q).trim()`. -/
def normalizeQuery (q : String) : String :=
  if jsTrim (String.intercalate " " (normFiltered q)) ≠ "" then
    jsTrim (String.intercalate " " (normFiltered q))
  else if jsTrim (String.mk (normBase q)) ≠ "" then
    jsTrim (String.mk (normBase q))
  else jsTrim q

/-! ## Catalog records and scored items -/

/-- The fields of a catalog record ("team") read by the search pipeline.
The source schema is open (spreadsheet-column keyed); absent fields are
the empty string, exactly as `String(x || '')` produces in JS.  The
primary tag field is called `Type` in the source; Lean reserves that
name, so it is `Type1` here. -/
structure Order where
  timestamp : String := ""
  TeamName : String := ""
  Type1 : String := ""
  Type2 : String := ""
  partner : String := ""
  Textarea : String := ""
  X1Q : String := ""
  industrymarket_expertise : String := ""
  spcv1 : String := ""
  spcv2 : String := ""
  spcv3 : String := ""
  spcv4 : String := ""
  spcv5 : String := ""
  spcv6 : String := ""
  spcv7 : String := ""
  spcv8 : String := ""
  spcv9 : String := ""
  spcv10 : String := ""
  Partner_confirmation : String := ""
  deriving DecidableEq, Repr

/-- A retrieved hit carrying its mutable `__score` accumulator. -/
structure Item where
  order : Order
  score : ℚ
  deriving DecidableEq, Repr

instance : Inhabited Order := ⟨{}⟩
instance : Inhabited Item := ⟨⟨{}, 0⟩⟩

/-! ## CSV / tag helpers (server.js:3363-3396 and 2256-2263) -/

/-- `_tokens(s)` (server.js:3363). -/
def _tokens (s : String) : List String := jsTokens s

/-- `_csvParts(s)` (server.js:3364): split on commas, trim, drop empties. -/
def _csvParts (s : String) : List String :=
  ((s.data.splitOnP (· = ',')).map (fun p => String.mk (jsTrimL p))).filter (· ≠ "")

/-- `_acronym(s)` (server.js:3365-3367): first letters of the
`/[^a-z0-9]+/i` words, uppercased. -/
def _acronym (s : String) : String :=
  jsUpper (String.mk ((runsOf isAlnumI s.data).filterMap (·.head?)))

/-- `_normExact` (server.js:2256): lowercase, squeeze whitespace, trim. -/
def _normExact (s : String) : String :=
  jsTrim (String.mk (squashRuns isJsWs ' ' (s.data.map Char.toLower)))

/-- `_splitCSVExact` (server.js:2257). -/
def _splitCSVExact (s : String) : List String := _csvParts s

/-- `csvHasTagExact(csv, wanted)` (server.js:2261-2263). -/
def csvHasTagExact (csv wanted : String) : Bool :=
  (_splitCSVExact csv).any (fun tag => _normExact tag = _normExact wanted)

/-- `hasTag(order, term)` (server.js:3392-3396): exact membership of the
lowercased term among the trimmed lowercased CSV entries of
`Type`/`Type2`. -/
def hasTag (o : Order) (term : String) : Bool :=
  let set := (_csvParts o.Type1 ++ _csvParts o.Type2).map (fun s => jsLower (jsTrim s))
  set.contains (jsLower term)

/-- The result record of `keywordFeatures`. -/
structure KF where
  typeHit : Bool
  type2Hit : Bool
  overlap : Nat
  hasAcr : Bool
  deriving Repr, DecidableEq

/-- `keywordFeatures(order, qCoreTokens)` (server.js:3368-3389). -/
def keywordFeatures (o : Order) (qCoreTokens : List String) : KF :=
  let typeParts := _csvParts o.Type1
  let type2Parts := _csvParts o.Type2
  let allText := String.intercalate " " ([o.TeamName, o.Type1, o.Type2, o.Textarea,
    o.X1Q, o.industrymarket_expertise,
    o.spcv1, o.spcv2, o.spcv3, o.spcv4, o.spcv5,
    o.spcv6, o.spcv7, o.spcv8, o.spcv9, o.spcv10].map jsLower)
  let qSet := qCoreTokens.eraseDups
  let textTokens := _tokens allText
  let typeHit := typeParts.any (fun t => qSet.contains (jsLower t))
  let type2Hit := type2Parts.any (fun t => qSet.contains (jsLower t))
  let overlap := qSet.countP (fun t => textTokens.contains t)
  let acrQ := _acronym (String.intercalate " " qSet)
  let hasAcr := acrQ ≠ "" && (typeParts ++ type2Parts).any (fun t => _acronym t = acrQ)
  ⟨typeHit, type2Hit, overlap, hasAcr⟩

/-! ## Exact phrases (server.js:3292-3346) -/

/-- Contiguous bigrams and trigrams of the filtered token list, in the
order the source's loop inserts them. -/
def gramsOf : List String → List String
  | a :: b :: rest =>
    (a ++ " " ++ b) ::
      (match rest with
       | c :: _ => [a ++ " " ++ b ++ " " ++ c]
       | [] => []) ++ gramsOf (b :: rest)
  | _ => []

/-- Fuel-driven worker for `quotedSubs`. -/
def quotedSubsAux : Nat → List Char → List (List Char)
  | 0, _ => []
  | _ + 1, [] => []
  | fuel + 1, c :: rest =>
    if c = '"' then
      let content := rest.takeWhile (· ≠ '"')
      if (rest.dropWhile (· ≠ '"')) = [] then []
      else if content ≠ [] then
        content :: quotedSubsAux fuel ((rest.dropWhile (· ≠ '"')).tail)
      else quotedSubsAux fuel rest
    else quotedSubsAux fuel rest

/-- The inner texts of the matches of `/"([^"]+)"/g`: at an opening
quote, capture the (non-empty) run up to the next quote and continue
after it; an empty capture or a missing closing quote is no match. -/
def quotedSubs (s : List Char) : List (List Char) :=
  quotedSubsAux s.length s

/-- Insert while keeping first occurrences (JS `Set` insertion order). -/
def addUniq (l : List String) (s : String) : List String :=
  if l.contains s then l else l ++ [s]

/-- Word count for the `split(/\s+/).length >= 2` checks. -/
def wsWordCount (s : String) : Nat :=
  ((s.data.splitOnP isJsWs).filter (· ≠ [])).length

/-- `extractExactPhrases(rawQ)` (server.js:3292-3320). -/
def extractExactPhrases (rawQ : String) : List String :=
  let raw := jsLower rawQ
  let tokens := (runsOf isTokChar raw.data).map String.mk
  let filtered := tokens.filter (fun t => !STOPWORDS.contains t)
  let base := (gramsOf filtered).foldl addUniq []
  let quoted := (quotedSubs raw.data).map (fun c => jsTrim (String.mk c))
  let withQuoted := (quoted.filter (fun q => 2 ≤ wsWordCount q)).foldl addUniq base
  withQuoted.filter (fun p => 2 ≤ wsWordCount p)

/-- Test of the regex `` new RegExp(`\\b${escapeRegExp(pLc)}\\b`, 'i') ``
against `s`: the literal pattern occurs somewhere in `s` with word
boundaries on both sides.  Inputs are lowercased by the caller, making
the `i` flag a no-op in the model. -/
def wbTestAux (pat : List Char) (headW lastW : Bool) :
    Bool → List Char → Bool
  | prevW, s =>
    (pat ≠ [] && pat.isPrefixOf s && (prevW != headW) &&
      (lastW != isWordChar ((s.drop pat.length).headD ' '))) ||
    match s with
    | [] => false
    | c :: rest => wbTestAux pat headW lastW (isWordChar c) rest

/-- `re.test(s)` for `\bPAT\b` with a literal pattern. -/
def wbTest (pat s : String) : Bool :=
  wbTestAux pat.data (isWordChar (pat.data.headD ' '))
    (isWordChar (pat.data.getLastD ' ')) false s.data

/-- `phraseBoostForItem(item, phrases)` (server.js:3323-3347): +0.35 per
phrase that is an exact CSV tag, +0.20 per phrase found in the team
name, +0.10 per phrase found in the keyword field, capped at 0.60. -/
def phraseBoostForItem (o : Order) (phrases : List String) : ℚ :=
  if phrases = [] then 0
  else
    let team := jsLower o.TeamName
    let boost := phrases.foldl
      (fun b p =>
        let pLc := jsLower p
        let b := if csvHasTagExact o.Type1 pLc || csvHasTagExact o.Type2 pLc
                 then b + 0.35 else b
        let b := if wbTest pLc team then b + 0.20 else b
        if wbTest pLc (jsLower o.Textarea) then b + 0.10 else b) 0
    min boost 0.60

/-! ## SHA-256 (for `stableIdForOrder`, server.js:2490-2499)

The id is `createHash('sha256').update(key).digest('hex').slice(0, 32)`:
the first 128 bits of the SHA-256 digest of the UTF-8 bytes of the key,
in lowercase hex.  The hash is implemented here over `Nat` with explicit
32-bit reductions. -/

/-- UTF-8 encoding of one code point. -/
def utf8Char (n : Nat) : List Nat :=
  if n < 0x80 then [n]
  else if n < 0x800 then [0xc0 + n / 64, 0x80 + n % 64]
  else if n < 0x10000 then [0xe0 + n / 4096, 0x80 + n / 64 % 64, 0x80 + n % 64]
  else [0xf0 + n / 262144, 0x80 + n / 4096 % 64, 0x80 + n / 64 % 64, 0x80 + n % 64]

/-- UTF-8 bytes of a string (`Buffer.from(key)` in Node). -/
def utf8Bytes (s : String) : List Nat :=
  s.data.flatMap (fun c => utf8Char c.toNat)

/-- `2^32`. -/
def M32 : Nat := 4294967296

/-- Addition mod `2^32`. -/
def add32 (a b : Nat) : Nat := (a + b) % M32

/-- Right rotation of a 32-bit word. -/
def rotr32 (n x : Nat) : Nat :=
  ((x >>> n) ||| ((x <<< (32 - n)) % M32)) % M32

/-- Bitwise complement of a 32-bit word. -/
def not32 (x : Nat) : Nat := x ^^^ (M32 - 1)

/-- SHA-256 round constants. -/
def shaK : List Nat :=
  [1116352408, 1899447441, 3049323471, 3921009573, 961987163, 1508970993,
   2453635748, 2870763221, 3624381080, 310598401, 607225278, 1426881987,
   1925078388, 2162078206, 2614888103, 3248222580, 3835390401, 4022224774,
   264347078, 604807628, 770255983, 1249150122, 1555081692, 1996064986,
   2554220882, 2821834349, 2952996808, 3210313671, 3336571891, 3584528711,
   113926993, 338241895, 666307205, 773529912, 1294757372, 1396182291,
   1695183700, 1986661051, 2177026350, 2456956037, 2730485921, 2820302411,
   3259730800, 3345764771, 3516065817, 3600352804, 4094571909, 275423344,
   430227734, 506948616, 659060556, 883997877, 958139571, 1322822218,
   1537002063, 1747873779, 1955562222, 2024104815, 2227730452, 2361852424,
   2428436474, 2756734187, 3204031479, 3329325298]

/-- SHA-256 initial hash state. -/
def shaH0 : List Nat :=
  [1779033703, 3144134277, 1013904242, 2773480762,
   1359893119, 2600822924, 528734635, 1541459225]

/-- Big-endian 8-byte encoding. -/
def be64 (n : Nat) : List Nat :=
  (List.range 8).map (fun i => n >>> (8 * (7 - i)) % 256)

/-- SHA-256 padding: `0x80`, zeros to 56 mod 64, 64-bit bit length. -/
def sha256pad (msg : List Nat) : List Nat :=
  let L := msg.length
  let z := (120 - (L + 1) % 64) % 64
  msg ++ 0x80 :: List.replicate z 0 ++ be64 (8 * L)

/-- Big-endian 32-bit words from bytes. -/
def bytesToWords : List Nat → List Nat
  | b0 :: b1 :: b2 :: b3 :: rest =>
    (((b0 * 256 + b1) * 256 + b2) * 256 + b3) :: bytesToWords rest
  | _ => []

/-- `σ₀` of the message schedule. -/
def ssig0 (x : Nat) : Nat := rotr32 7 x ^^^ rotr32 18 x ^^^ (x >>> 3)

/-- `σ₁` of the message schedule. -/
def ssig1 (x : Nat) : Nat := rotr32 17 x ^^^ rotr32 19 x ^^^ (x >>> 10)

/-- Extend the 16 message words to 64. -/
def extendWords (fuel : Nat) (w : List Nat) : List Nat :=
  match fuel with
  | 0 => w
  | fuel + 1 =>
    if 64 ≤ w.length then w
    else
      let n := w.length
      extendWords fuel (w ++ [add32 (add32 (w.getD (n - 16) 0) (ssig0 (w.getD (n - 15) 0)))
        (add32 (w.getD (n - 7) 0) (ssig1 (w.getD (n - 2) 0)))])

/-- One SHA-256 round on the state `[a,b,c,d,e,f,g,h]`. -/
def shaRound (st : List Nat) (kw : Nat × Nat) : List Nat :=
  match st with
  | [a, b, c, d, e, f, g, h] =>
    let s1 := rotr32 6 e ^^^ rotr32 11 e ^^^ rotr32 25 e
    let ch := (e &&& f) ^^^ (not32 e &&& g)
    let t1 := add32 h (add32 s1 (add32 ch (add32 kw.1 kw.2)))
    let s0 := rotr32 2 a ^^^ rotr32 13 a ^^^ rotr32 22 a
    let mj := (a &&& b) ^^^ (a &&& c) ^^^ (b &&& c)
    let t2 := add32 s0 mj
    [add32 t1 t2, a, b, c, add32 d t1, e, f, g]
  | _ => st

/-- Compress one 64-byte block into the hash state. -/
def shaBlock (hs : List Nat) (block : List Nat) : List Nat :=
  let w := extendWords 48 (bytesToWords block)
  let out := (shaK.zip w).foldl shaRound hs
  (hs.zip out).map (fun p => add32 p.1 p.2)

/-- Fuel-driven worker for `chunks64`. -/
def chunks64Aux : Nat → List Nat → List (List Nat)
  | 0, _ => []
  | _ + 1, [] => []
  | fuel + 1, c :: rest => (c :: rest).take 64 :: chunks64Aux fuel ((c :: rest).drop 64)

/-- Split into 64-byte chunks. -/
def chunks64 (l : List Nat) : List (List Nat) :=
  chunks64Aux l.length l

/-- The eight 32-bit words of the SHA-256 digest of a byte string. -/
def sha256words (msg : List Nat) : List Nat :=
  (chunks64 (sha256pad msg)).foldl shaBlock shaH0

/-- The digest as one 256-bit natural number (big-endian). -/
def sha256nat (msg : List Nat) : Nat :=
  (sha256words msg).foldl (fun acc w => acc * M32 + w) 0

/-- Lowercase hex digit. -/
def hexDigitChar (n : Nat) : Char :=
  if n < 10 then Char.ofNat (48 + n) else Char.ofNat (87 + n)

/-- Fixed-width lowercase hex, most significant digit first. -/
def toHexFixed : Nat → Nat → List Char
  | 0, _ => []
  | w + 1, n => toHexFixed w (n / 16) ++ [hexDigitChar (n % 16)]

/-! ## Stable identity (server.js:2490-2499) -/

/-- The lowercased-trimmed identity tuple `(timestamp, name, tag1,
tag2, partner)`. -/
def normTupleOf (o : Order) : List String :=
  [o.timestamp, o.TeamName, o.Type1, o.Type2, o.partner].map
    (fun v => jsLower (jsTrim v))

/-- `stableKeyFromOrder(o)`: the joined lowercased-trimmed tuple. -/
def stableKeyFromOrder (o : Order) : String :=
  String.intercalate "|" (normTupleOf o)

/-- `stableIdForOrder(o)`: first 32 hex characters of the SHA-256 of the
stable key. -/
def stableIdForOrder (o : Order) : String :=
  String.mk (toHexFixed 32 (sha256nat (utf8Bytes (stableKeyFromOrder o)) >>> 128))

/-! ## Deduplication (`dedupeByTeamNameScore`, server.js:2478-2487) -/

/-- The grouping key: normalized team name, or the stable key when the
name is blank. -/
def dedupeKeyOf (it : Item) : String :=
  let keyTN := jsLower (jsTrim it.order.TeamName)
  if keyTN ≠ "" then keyTN else stableKeyFromOrder it.order

/-- JS `Map.prototype.set`: replace in place if the key exists,
otherwise append (insertion order preserved). -/
def mapSet (m : List (String × β)) (k : String) (v : β) :
    List (String × β) :=
  match m with
  | [] => [(k, v)]
  | (k', v') :: rest =>
    if k' = k then (k', v) :: rest else (k', v') :: mapSet rest k v

/-- One iteration of the dedupe loop: keep the incumbent unless the new
item's score is strictly greater. -/
def dedupeStep (m : List (String × Item)) (it : Item) : List (String × Item) :=
  match m.lookup (dedupeKeyOf it) with
  | some prev =>
    if prev.score < it.score then mapSet m (dedupeKeyOf it) it else m
  | none => mapSet m (dedupeKeyOf it) it

/-- `dedupeByTeamNameScore(items)` (server.js:2478-2487). -/
def dedupeByTeamNameScore (items : List Item) : List Item :=
  (items.foldl dedupeStep []).map (·.2)

/-! ## Hybrid score fusion (the re-rank block shared by `POST /search`
(server.js:3472-3520), `GET /search` (3588-3622) and `POST /searchPaged`
(3699-3734)) -/

/-- The per-item fused score.  `tech` selects the `GET /search` /
`/searchPaged` variant, whose SEO intent also fires on the substring
`"technical seo"`; `POST /search` uses `tech := false`. -/
def rerankScore (tech : Bool) (qn : String) (qTokens : List String)
    (phrases : List String) (it : Item) : ℚ :=
  let o := it.order
  let feat := keywordFeatures o qTokens
  let f := it.score
  let f := if feat.typeHit then f + 0.30 else f
  let f := if feat.type2Hit then f + 0.15 else f
  let f := f + (min feat.overlap 3 : ℚ) * 0.06
  let f := if feat.hasAcr then f + 0.08 else f
  let f := if !feat.typeHit && !feat.type2Hit && feat.overlap = 0
           then f - 0.10 else f
  let f := if jsTrim o.Partner_confirmation ≠ "" then f + 0.03 else f
  let wantSEO := qTokens.contains "seo" || (tech && jsIncludes "technical seo" qn)
  let wantPR := qTokens.contains "pr" || jsIncludes "public relations" qn
  let wantCICD := jsIncludes "ci/cd" qn || jsIncludes "ci cd" qn ||
    jsIncludes "cicd" qn || (qTokens.contains "ci" && qTokens.contains "cd")
  let f := if wantSEO then
      (if hasTag o "seo" || hasTag o "technical seo" || hasTag o "on-page seo" ||
          hasTag o "link building" || hasTag o "content seo"
       then f + 0.12 else f - 0.22)
    else f
  let f := if wantPR then
      (if hasTag o "pr" || hasTag o "public relations" || hasTag o "media relations"
       then f + 0.10 else f - 0.18)
    else f
  let f := if wantCICD then
      (if hasTag o "ci/cd" || hasTag o "ci cd" || hasTag o "cicd" ||
          hasTag o "ci" || hasTag o "cd"
       then f + 0.10 else f - 0.18)
    else f
  f + phraseBoostForItem o phrases

/-- The hybrid re-rank pass over all items. -/
def rerankItems (tech : Bool) (qn : String) (qTokens : List String)
    (phrases : List String) (items : List Item) : List Item :=
  items.map (fun it => { it with score := rerankScore tech qn qTokens phrases it })

/-- The preferred-keyword list of the intent-aware pass
(server.js:3527-3537). -/
def prefersList (qn : String) (qTokens : List String) : List String :=
  (if qTokens.contains "ci" || jsIncludes "ci/cd" qn || jsIncludes "ci cd" qn ||
      jsIncludes "cicd" qn || jsIncludes "pipeline" qn
   then ["ci", "cicd", "ci/cd", "pipeline", "monorepo", "github actions",
         "gitlab", "jenkins", "circleci"] else []) ++
  (if qTokens.contains "pr" || jsIncludes "public relations" qn
   then ["pr", "public relations", "media relations"] else []) ++
  (if qTokens.contains "marketing" || jsIncludes "strategy" qn
   then ["marketing", "digital strategy", "content", "seo", "brand strategy",
         "go-to-market"] else [])

/-- The intent-aware gentle +0.15 boost (server.js:3539-3550). -/
def prefersBoost (qn : String) (qTokens : List String) (items : List Item) :
    List Item :=
  if prefersList qn qTokens = [] then items
  else
    items.map (fun it =>
      let hasPref := (prefersList qn qTokens).any (fun p =>
        let pLc := jsLower p
        jsIncludes pLc (jsLower it.order.Type1) ||
        jsIncludes pLc (jsLower it.order.Type2) ||
        jsIncludes pLc (jsLower it.order.Textarea))
      { it with score := it.score + if hasPref then 0.15 else 0 })

/-! ## Sorting (server.js:3553 and 3765)

`Array.prototype.sort` is stable; both comparators are modelled by a
stable insertion sort parameterised by the strict "must come before"
relation of the comparator. -/

/-- Insert `x` after every element that is not strictly after it
(stability: on ties the earlier element stays earlier). -/
def insDesc (prec : α → α → Bool) (x : α) : List α → List α
  | [] => [x]
  | y :: ys => if prec x y then x :: y :: ys else y :: insDesc prec x ys

/-- Stable sort by the strict precedence `prec`. -/
def sortDesc (prec : α → α → Bool) (l : List α) : List α :=
  l.foldl (fun acc x => insDesc prec x acc) []

/-- The `POST /search` / `GET /search` comparator
`(a,b) => (b.__score||0) - (a.__score||0)`: strictly before iff strictly
greater fused score. -/
def scorePrec (a b : Item) : Bool := b.score < a.score

/-- The `/searchPaged` comparator (server.js:3765): score descending,
ties broken by ascending `stableIdForOrder` string order. -/
def pagedPrec (a b : Item) : Bool :=
  b.score < a.score ||
    (a.score = b.score && jsStrLt (stableIdForOrder a.order).data
      (stableIdForOrder b.order).data)

/-- The final sort of `POST /search` and `GET /search`. -/
def finalSortSearch (items : List Item) : List Item :=
  sortDesc scorePrec items

/-- The final sort of `POST /searchPaged`. -/
def finalSortPaged (items : List Item) : List Item :=
  sortDesc pagedPrec items

/-! ## MMR diversification (server.js:3219-3287) -/

/-- `_itemTokens(it)` (server.js:3219-3234). -/
def itemTokens (o : Order) : List String :=
  let pushCSV := fun (s : String) =>
    ((s.data.splitOnP (· = ',')).map (fun p => jsLower (jsTrim (String.mk p)))).filter (· ≠ "")
  let pushWords := fun (s : String) => jsTokens s
  let parts := pushCSV o.Type1 ++ pushCSV o.Type2 ++ pushWords o.TeamName ++
    pushWords (String.mk (o.Textarea.data.take 300)) ++
    (let acr := _acronym (o.Type1 ++ " " ++ o.Type2)
     if acr ≠ "" then [jsLower acr] else [])
  parts.eraseDups

/-- `_jaccard(aSet, bSet)` (server.js:3235-3240) on deduplicated token
lists. -/
def jaccard (a b : List String) : ℚ :=
  let inter := a.countP (fun x => b.contains x)
  let union := a.length + b.length - inter
  if union = 0 then 0 else (inter : ℚ) / (union : ℚ)

/-- All unordered pairs (i < j) of a list. -/
def allPairs : List α → List (α × α)
  | [] => []
  | x :: xs => xs.map (fun y => (x, y)) ++ allPairs xs

/-- `shouldDiversify(items, checkTopN, simThreshold)`
(server.js:3274-3287). -/
def shouldDiversify (items : List Item) (checkTopN : Nat) (simThreshold : ℚ) :
    Bool :=
  let N := min checkTopN items.length
  if N < 3 then false
  else
    let sets := (items.take N).map (fun it => itemTokens it.order)
    let pairsL := allPairs sets
    let pairs := pairsL.length
    let high := pairsL.countP (fun p => simThreshold ≤ jaccard p.1 p.2)
    decide (0 < pairs) && decide ((1 : ℚ) / 2 < (high : ℚ) / (pairs : ℚ))

/-- Index (in `x :: xs`) of the first element with the maximal MMR
value — the `bestVal = -Infinity; if (mmr > bestVal)` scan. -/
def firstArgmax (f : α → ℚ) (x : α) (xs : List α) : Nat :=
  go xs 1 0 (f x)
where
  go : List α → Nat → Nat → ℚ → Nat
    | [], _, bi, _ => bi
    | y :: ys, i, bi, bv =>
      if bv < f y then go ys (i + 1) i (f y) else go ys (i + 1) bi bv

/-- The MMR value `λ·relevance − (1−λ)·maxSimilarityToSelected`. -/
def mmrValue (lam : ℚ) (pickedToks : List (List String))
    (e : Item × List String) : ℚ :=
  let maxSim := pickedToks.foldl (fun m t => max m (jaccard e.2 t)) 0
  lam * e.1.score - (1 - lam) * maxSim

/-- The MMR selection loop: while fewer than `stopLen` items are picked
and candidates remain, move the first-best candidate from `rem` to the
picked list.  `fuel` bounds the iterations (`items.length` suffices). -/
def mmrLoop (lam : ℚ) (stopLen : Nat) :
    Nat → List (List String) → List Item → List (Item × List String) →
    List Item × List (Item × List String)
  | 0, _, acc, rem => (acc.reverse, rem)
  | fuel + 1, pickedToks, acc, rem =>
    if acc.length + 1 < stopLen then
      match rem with
      | [] => (acc.reverse, rem)
      | r :: rs =>
        let j := firstArgmax (mmrValue lam pickedToks) r rs
        let best := (r :: rs).getD j r
        mmrLoop lam stopLen fuel (best.2 :: pickedToks) (best.1 :: acc)
          ((r :: rs).eraseIdx j)
    else (acc.reverse, rem)

/-- `mmrDiversifyOrder(items, K, lambda)` (server.js:3243-3272): seed
with the best-scored item, greedily pick MMR maximisers up to
`min K items.length`, then append the unpicked items sorted by score. -/
def mmrDiversifyOrder (items : List Item) (K : Nat) (lam : ℚ) : List Item :=
  if items.length ≤ 1 then items
  else
    match sortDesc (fun a b => b.1.score < a.1.score)
        (items.map (fun it => (it, itemTokens it.order))) with
    | [] => items
    | first :: remaining =>
      first.1 ::
        ((mmrLoop lam (min K items.length) items.length [first.2] [] remaining).1 ++
          (sortDesc (fun a b => b.1.score < a.1.score)
            (mmrLoop lam (min K items.length) items.length [first.2] []
              remaining).2).map (·.1))

/-! ## Endpoint pipelines

The handlers are modelled from the point where the vector store has
answered: `hits` is the list of payload records with their cosine
scores, already mapped through
`h => ({...h.payload, __score: h.score})` and filtered of empty
payloads.  Everything after that point is pure in the source. -/

/-- `vectorsEnabled()` (server.js:1823-1825): all three env vars are
non-empty strings. -/
def vectorsEnabled (qdrantUrl qdrantApiKey jinaApiKey : String) : Bool :=
  qdrantUrl ≠ "" && qdrantApiKey ≠ "" && jinaApiKey ≠ ""

/-- The shared post-retrieval pipeline of `POST /search` and
`GET /search` (dedupe → hybrid re-rank → intent boost → sort → optional
MMR). -/
def searchPipeline (tech : Bool) (rawQ : String) (hits : List Item) :
    List Item :=
  let q := normalizeQuery (jsTrim rawQ)
  let phrases := extractExactPhrases (jsTrim rawQ)
  let qn := jsLower q
  let qTokens := (runsOf isTokChar qn.data).map String.mk
  let items := dedupeByTeamNameScore hits
  let items := rerankItems tech qn qTokens phrases items
  let items := prefersBoost qn qTokens items
  let items := finalSortSearch items
  if shouldDiversify items 8 0.55 then
    mmrDiversifyOrder items (min 10 items.length) 0.7
  else items

/-- The full `POST /search` handler decision: HTTP status and body
(server.js:3446-3562).  `enabled` is `vectorsEnabled()`. -/
def postSearchHandler (enabled : Bool) (rawQ : String) (hits : List Item) :
    Nat × List Item :=
  let q := normalizeQuery (jsTrim rawQ)
  if q = "" then (200, [])
  else if !enabled then (200, [])
  else (200, searchPipeline false rawQ hits)

/-- The `GET /search` handler decision (server.js:3565-3661); identical
except for the `technical seo` variant of the SEO intent. -/
def getSearchHandler (enabled : Bool) (rawQ : String) (hits : List Item) :
    Nat × List Item :=
  let q := normalizeQuery (jsTrim rawQ)
  if q = "" then (200, [])
  else if !enabled then (200, [])
  else (200, searchPipeline true rawQ hits)

/-! ## Paginator (`POST /searchPaged`, server.js:3665-3782) -/

/-- The page of results returned by `/searchPaged`; `next_cursor` models
`JSON.stringify({page: p})` as the page number it encodes. -/
structure PagedResponse where
  status : Nat
  items : List Item
  next_cursor : Option Nat
  total_estimate : Nat
  deriving Repr, DecidableEq

/-- `PAGE_SIZE = Math.min(Math.max(pageSizeReq || 50, 1), 50)`
(server.js:3671). -/
def pageSizeOf (pageSizeReq : Nat) : Nat :=
  min (max (if pageSizeReq = 0 then 50 else pageSizeReq) 1) 50

/-- `candidatesK = Math.min(1000, page * PAGE_SIZE * 2)`
(server.js:3690). -/
def candidatesKOf (page pageSize : Nat) : Nat :=
  min 1000 (page * pageSize * 2)

/-- The pure processing stage of `/searchPaged` (dedupe → hybrid
re-rank → intent boost → stable-id-tiebreak sort → optional MMR) applied
to the retrieved candidate pool `hits`. -/
def pagedProcess (rawQ : String) (hits : List Item) (PS : Nat) : List Item :=
  let q := normalizeQuery (jsTrim rawQ)
  let phrases := extractExactPhrases (jsTrim rawQ)
  let qn := jsLower q
  let qTokens := (runsOf isTokChar qn.data).map String.mk
  let items := dedupeByTeamNameScore hits
  let items := rerankItems true qn qTokens phrases items
  let items := prefersBoost qn qTokens items
  let items := finalSortPaged items
  if shouldDiversify items 8 0.55 then
    mmrDiversifyOrder items (min PS items.length) 0.7
  else items

/-- The slice `items.slice(start, end)` served for `page`, with
`start = (page-1)*PAGE_SIZE` and `end = min(page*PAGE_SIZE, total)`
(server.js:3770-3773). -/
def pagedSlice (L : List Item) (page PS : Nat) : List Item :=
  if (page - 1) * PS < min (page * PS) L.length then
    (L.drop ((page - 1) * PS)).take (min (page * PS) L.length - (page - 1) * PS)
  else []

/-- `next_cursor`: the next page index while `end < total`
(server.js:3774-3775). -/
def pagedCursor (L : List Item) (page PS : Nat) : Option Nat :=
  if min (page * PS) L.length < L.length then some (page + 1) else none

/-- The `POST /searchPaged` handler (server.js:3665-3782).  `allHits` is
the full similarity-ranked neighbour list held by the vector store for
this query/snapshot; `vectorSearch(vec, candidatesK)` returns its first
`candidatesK` entries.  `pageReq` is the page encoded by the request
cursor (1 when absent). -/
def searchPagedHandler (enabled : Bool) (rawQ : String) (allHits : List Item)
    (pageReq pageSizeReq : Nat) : PagedResponse :=
  if normalizeQuery (jsTrim rawQ) = "" then ⟨200, [], none, 0⟩
  else if !enabled then ⟨200, [], none, 0⟩
  else
    ⟨200,
      pagedSlice
        (pagedProcess rawQ
          (allHits.take (candidatesKOf (max 1 pageReq) (pageSizeOf pageSizeReq)))
          (pageSizeOf pageSizeReq))
        (max 1 pageReq) (pageSizeOf pageSizeReq),
      pagedCursor
        (pagedProcess rawQ
          (allHits.take (candidatesKOf (max 1 pageReq) (pageSizeOf pageSizeReq)))
          (pageSizeOf pageSizeReq))
        (max 1 pageReq) (pageSizeOf pageSizeReq),
      (pagedProcess rawQ
        (allHits.take (candidatesKOf (max 1 pageReq) (pageSizeOf pageSizeReq)))
        (pageSizeOf pageSizeReq)).length⟩

/-- Follow `next_cursor` from page `page`, concatenating the items of
each page; `fuel` bounds the number of pages fetched. -/
def collectPages (handler : Nat → PagedResponse) : Nat → Nat → List Item
  | 0, _ => []
  | fuel + 1, page =>
    let r := handler page
    r.items ++ match r.next_cursor with
               | some p => collectPages handler fuel p
               | none => []

/-! ## Query-embedding cache (`embedTextCached`, server.js:1996-2071)

`α` is the type of embedding vectors (opaque to the caching logic); the
provider is a function `embed`.  The model returns, besides the vector
and the updated cache, the list of texts actually sent to the provider
by this call. -/

/-- A cache entry `{vec, exp}` keyed by the composite string. -/
structure EmbEntry (α : Type) where
  vec : α
  exp : Nat
  deriving Repr, DecidableEq

/-- `_embGet(key)` (server.js:1999-2003): a hit only while unexpired;
expired entries are deleted. -/
def _embGet (cache : List (String × EmbEntry α)) (key : String) (now : Nat) :
    Option α × List (String × EmbEntry α) :=
  match cache.lookup key with
  | some e =>
    if now < e.exp then (some e.vec, cache)
    else (none, cache.filter (fun p => p.1 ≠ key))
  | none => (none, cache)

/-- `_embSet(key, vec)` (server.js:2004-2011): insert with expiry
`now + ttl`, evicting the oldest entry beyond 1000 entries. -/
def _embSet (cache : List (String × EmbEntry α)) (key : String) (vec : α)
    (now ttl : Nat) : List (String × EmbEntry α) :=
  let m := mapSet cache key ⟨vec, now + ttl⟩
  if 1000 < m.length then m.tail else m

/-- The composite cache key `` `${CURRENT_MODEL}|${CURRENT_DIM}|${String(q||'').trim()}` ``
(server.js:2065). -/
def embKey (model : String) (dim : Nat) (q : String) : String :=
  model ++ "|" ++ toString dim ++ "|" ++ jsTrim q

/-- `embedTextCached(q)` (server.js:2064-2071).  Note that on a cache
miss the source calls `embedText(key)` — the **key**, not `q` — so the
provider receives the composite string.  Returns
(vector, new cache, texts sent to the provider). -/
def embedTextCached (model : String) (dim : Nat) (ttl now : Nat)
    (embed : String → α) (cache : List (String × EmbEntry α)) (q : String) :
    α × List (String × EmbEntry α) × List String :=
  match _embGet cache (embKey model dim q) now with
  | (some hit, cache') => (hit, cache', [])
  | (none, cache') =>
    (embed (embKey model dim q),
      _embSet cache' (embKey model dim q) (embed (embKey model dim q)) now ttl,
      [embKey model dim q])

/-! ## Concrete fixtures for the claim scenarios -/

/-- Team A of the spec scenario for claim C1. -/
def hitA : Item := ⟨{ TeamName := "Team A", Type1 := "SEO, Content" }, 1/2⟩

/-- Team B of the spec scenario for claim C1. -/
def hitB : Item := ⟨{ TeamName := "Team B", Type1 := "PR" }, 1/2⟩

/-- Two records that tie on every fusion signal (claim C2). -/
def tieA : Item := ⟨{ TeamName := "aaa" }, 1/2⟩

/-- See `tieA`. -/
def tieB : Item := ⟨{ TeamName := "bbb" }, 1/2⟩

/-- Similarity-ranked snapshot for the pagination counterexample (C3):
`pg3` carries the `SEO` tag and overtakes the others once retrieved. -/
def pg1 : Item := ⟨{ TeamName := "n1" }, 9/10⟩

/-- See `pg1`. -/
def pg2 : Item := ⟨{ TeamName := "n2" }, 8/10⟩

/-- See `pg1`. -/
def pg3 : Item := ⟨{ TeamName := "n3", Type1 := "SEO" }, 7/10⟩

/-- See `pg1`. -/
def pg4 : Item := ⟨{ TeamName := "n4" }, 6/10⟩

/-- Two-record snapshot for the C3 witness. -/
def pw1 : Item := ⟨{ TeamName := "w1" }, 3/5⟩

/-- See `pw1`. -/
def pw2 : Item := ⟨{ TeamName := "w2" }, 2/5⟩

/-- Duplicate-name items for the C4 witness: `dup2` wins its group on
score; `dup3` ties with it but comes later. -/
def dup1 : Item := ⟨{ TeamName := "x" }, 1⟩

/-- See `dup1`. -/
def dup2 : Item := ⟨{ TeamName := "x " }, 2⟩

/-- See `dup1`. -/
def dup3 : Item := ⟨{ TeamName := " X" }, 2⟩

/-- Items for the C7 witness. -/
def mmrLow : Item := ⟨{ TeamName := "low" }, 1⟩

/-- See `mmrLow`. -/
def mmrHigh : Item := ⟨{ TeamName := "high" }, 2⟩

/-! ## Association-list lemmas for the JS `Map` model -/

theorem lookup_mapSet_self (m : List (String × β)) (k : String) (v : β) :
    (mapSet m k v).lookup k = some v := by
  induction m with
  | nil => simp [mapSet, List.lookup]
  | cons p rest ih =>
    obtain ⟨k', v'⟩ := p
    by_cases h : k' = k
    · simp [mapSet, h, List.lookup]
    · have hb : (k == k') = false := by simp [Ne.symm h]
      simp [mapSet, h, List.lookup, hb, ih]

theorem lookup_mapSet_ne (m : List (String × β)) (k k' : String) (v : β)
    (h : k' ≠ k) : (mapSet m k v).lookup k' = m.lookup k' := by
  induction m with
  | nil =>
    have hb : (k' == k) = false := by simp [h]
    simp [mapSet, List.lookup, hb]
  | cons p rest ih =>
    obtain ⟨k₀, v₀⟩ := p
    by_cases h₀ : k₀ = k
    · subst h₀
      have hb : (k' == k₀) = false := by simp [h]
      simp [mapSet, List.lookup, hb]
    · by_cases h₁ : k' = k₀
      · subst h₁
        simp [mapSet, h₀, List.lookup]
      · have hb : (k' == k₀) = false := by simp [h₁]
        simp [mapSet, h₀, List.lookup, hb, ih]

theorem mem_mapSet (m : List (String × β)) (k : String) (v : β) (p : String × β)
    (h : p ∈ mapSet m k v) : p = (k, v) ∨ p ∈ m := by
  induction m with
  | nil => simpa [mapSet] using h
  | cons q rest ih =>
    obtain ⟨k₀, v₀⟩ := q
    by_cases h₀ : k₀ = k
    · subst h₀
      simp only [mapSet, if_pos rfl] at h
      rcases List.mem_cons.mp h with h1 | h1
      · exact Or.inl h1
      · exact Or.inr (List.mem_cons_of_mem _ h1)
    · simp only [mapSet, if_neg h₀] at h
      rcases List.mem_cons.mp h with h1 | h1
      · exact Or.inr (h1 ▸ List.mem_cons_self _ _)
      · rcases ih h1 with h2 | h2
        · exact Or.inl h2
        · exact Or.inr (List.mem_cons_of_mem _ h2)

theorem keys_mapSet (m : List (String × β)) (k : String) (v : β) :
    (mapSet m k v).map (·.1) =
      if (m.lookup k).isSome then m.map (·.1) else m.map (·.1) ++ [k] := by
  induction m with
  | nil => simp [mapSet, List.lookup]
  | cons p rest ih =>
    obtain ⟨k₀, v₀⟩ := p
    by_cases h₀ : k₀ = k
    · subst h₀
      simp [mapSet, List.lookup]
    · have hb : (k == k₀) = false := by simp [Ne.symm h₀]
      by_cases hs : (List.lookup k rest).isSome <;>
        simp [mapSet, h₀, List.lookup, hb, ih, hs]

theorem length_mapSet_le (m : List (String × β)) (k : String) (v : β) :
    (mapSet m k v).length ≤ m.length + 1 := by
  induction m with
  | nil => simp [mapSet]
  | cons p rest ih =>
    obtain ⟨k₀, v₀⟩ := p
    by_cases h₀ : k₀ = k
    · simp [mapSet, h₀]
    · simp only [mapSet, if_neg h₀, List.length_cons]
      omega

theorem lookup_none_not_mem (m : List (String × β)) (k : String)
    (h : m.lookup k = none) : k ∉ m.map (·.1) := by
  induction m with
  | nil => simp
  | cons p rest ih =>
    obtain ⟨k₀, v₀⟩ := p
    by_cases h₀ : k₀ = k
    · subst h₀
      simp [List.lookup] at h
    · have hb : (k == k₀) = false := by simp [Ne.symm h₀]
      simp only [List.lookup, hb] at h
      simp only [List.map_cons, List.mem_cons, not_or]
      exact ⟨fun he => h₀ he.symm, ih h⟩

theorem lookup_some_mem (m : List (String × β)) (k : String) (v : β)
    (h : m.lookup k = some v) : (k, v) ∈ m := by
  induction m with
  | nil => simp [List.lookup] at h
  | cons p rest ih =>
    obtain ⟨k₀, v₀⟩ := p
    by_cases h₀ : k₀ = k
    · subst h₀
      simp only [List.lookup, beq_self_eq_true, Option.some.injEq] at h
      exact h ▸ List.mem_cons_self _ _
    · have hb : (k == k₀) = false := by simp [Ne.symm h₀]
      simp only [List.lookup, hb] at h
      exact List.mem_cons_of_mem _ (ih h)

theorem mem_lookup_of_nodup (m : List (String × β)) (k : String) (v : β)
    (hnd : (m.map (·.1)).Nodup) (h : (k, v) ∈ m) : m.lookup k = some v := by
  induction m with
  | nil => simp at h
  | cons p rest ih =>
    obtain ⟨k₀, v₀⟩ := p
    simp only [List.map_cons, List.nodup_cons] at hnd
    rcases List.mem_cons.mp h with h1 | h1
    · obtain ⟨rfl, rfl⟩ : k = k₀ ∧ v = v₀ := by simpa using h1
      simp [List.lookup]
    · have hk : k₀ ≠ k := by
        rintro rfl
        exact hnd.1 (List.mem_map.mpr ⟨(k₀, v), h1, rfl⟩)
      have hb : (k == k₀) = false := by simp [Ne.symm hk]
      simp only [List.lookup, hb]
      exact ih hnd.2 h1

/-! ## First maximum (the fold kept by dedupe and by stable
score-descending sorts) -/

/-- The first element attaining the maximal `f`-value — the result of a
left fold that replaces the incumbent only on a strictly larger value. -/
def firstMaxBy (f : α → ℚ) : List α → Option α
  | [] => none
  | x :: xs => some (xs.foldl (fun inc y => if f inc < f y then y else inc) x)

theorem firstMaxBy_eq_none_iff (f : α → ℚ) (l : List α) :
    firstMaxBy f l = none ↔ l = [] := by
  cases l <;> simp [firstMaxBy]

theorem foldl_max_mem (f : α → ℚ) (xs : List α) (x : α) :
    xs.foldl (fun inc y => if f inc < f y then y else inc) x ∈ x :: xs := by
  induction xs generalizing x with
  | nil => simp
  | cons y ys ih =>
    simp only [List.foldl_cons]
    rcases List.mem_cons.mp (ih (if f x < f y then y else x)) with h | h
    · rw [h]
      by_cases hc : f x < f y <;> simp [hc]
    · exact List.mem_cons_of_mem _ (List.mem_cons_of_mem _ h)

theorem foldl_max_le (f : α → ℚ) (xs : List α) (x : α) :
    f x ≤ f (xs.foldl (fun inc y => if f inc < f y then y else inc) x) ∧
      ∀ z ∈ xs, f z ≤ f (xs.foldl (fun inc y => if f inc < f y then y else inc) x) := by
  induction xs generalizing x with
  | nil => simp
  | cons y ys ih =>
    simp only [List.foldl_cons]
    obtain ⟨h1, h2⟩ := ih (if f x < f y then y else x)
    constructor
    · refine le_trans ?_ h1
      by_cases hc : f x < f y <;> simp [hc]
      exact le_of_lt hc
    · intro z hz
      rcases List.mem_cons.mp hz with rfl | hz
      · refine le_trans ?_ h1
        by_cases hc : f x < f z
        · simp [hc]
        · simp only [hc, if_false]
          exact le_of_not_lt hc
      · exact h2 z hz

theorem firstMaxBy_mem (f : α → ℚ) (l : List α) (m : α)
    (h : firstMaxBy f l = some m) : m ∈ l := by
  cases l with
  | nil => simp [firstMaxBy] at h
  | cons x xs =>
    simp only [firstMaxBy, Option.some.injEq] at h
    exact h ▸ foldl_max_mem f xs x

theorem firstMaxBy_le (f : α → ℚ) (l : List α) (m : α)
    (h : firstMaxBy f l = some m) : ∀ x ∈ l, f x ≤ f m := by
  cases l with
  | nil => simp
  | cons x xs =>
    simp only [firstMaxBy, Option.some.injEq] at h
    intro z hz
    rcases List.mem_cons.mp hz with rfl | hz
    · exact h ▸ (foldl_max_le f xs z).1
    · exact h ▸ (foldl_max_le f xs x).2 z hz

theorem firstMaxBy_snoc (f : α → ℚ) (l : List α) (x : α) :
    firstMaxBy f (l ++ [x]) =
      some (match firstMaxBy f l with
            | none => x
            | some m => if f m < f x then x else m) := by
  cases l with
  | nil => simp [firstMaxBy]
  | cons y ys => simp [firstMaxBy, List.foldl_append]

theorem firstMaxBy_map (f : β → ℚ) (g : α → β) (l : List α) :
    firstMaxBy f (l.map g) = (firstMaxBy (fun a => f (g a)) l).map g := by
  cases l with
  | nil => simp [firstMaxBy]
  | cons x xs =>
    simp only [List.map_cons, firstMaxBy, Option.map_some, Option.some.injEq,
      List.foldl_map]
    induction xs generalizing x with
    | nil => simp
    | cons y ys ih =>
      simp only [List.foldl_cons]
      by_cases hc : f (g x) < f (g y) <;> simp [hc, ih]

/-! ## Stable sort lemmas -/

theorem insDesc_perm (p : α → α → Bool) (x : α) (l : List α) :
    (insDesc p x l).Perm (x :: l) := by
  induction l with
  | nil => simp [insDesc]
  | cons y ys ih =>
    simp only [insDesc]
    by_cases hc : p x y
    · simp [hc]
    · simp only [hc, if_false]
      exact (ih.cons y).trans (List.Perm.swap x y ys)

theorem sortDesc_perm (p : α → α → Bool) (l : List α) :
    (sortDesc p l).Perm l := by
  suffices h : ∀ acc : List α,
      (l.foldl (fun acc x => insDesc p x acc) acc).Perm (acc ++ l) by
    simpa using h []
  induction l with
  | nil => simp
  | cons x xs ih =>
    intro acc
    simp only [List.foldl_cons]
    refine (ih (insDesc p x acc)).trans ?_
    refine (List.Perm.append_right xs ((insDesc_perm p x acc))).trans ?_
    simpa using List.perm_middle.symm

theorem mem_insDesc (p : α → α → Bool) (x : α) (l : List α) (z : α)
    (h : z ∈ insDesc p x l) : z = x ∨ z ∈ l :=
  by simpa using (insDesc_perm p x l).mem_iff.mp h

theorem insDesc_pairwise (p : α → α → Bool)
    (hasym : ∀ a b, p a b = true → p b a = false)
    (htrans : ∀ a b c, p a b = true → p b c = true → p a c = true)
    (x : α) (l : List α) (hl : l.Pairwise (fun a b => p b a = false)) :
    (insDesc p x l).Pairwise (fun a b => p b a = false) := by
  induction l with
  | nil => simp [insDesc]
  | cons y ys ih =>
    obtain ⟨hy, hys⟩ := List.pairwise_cons.mp hl
    simp only [insDesc]
    by_cases hc : p x y
    · simp only [hc, if_true]
      refine List.Pairwise.cons ?_ hl
      intro z hz
      rcases List.mem_cons.mp hz with rfl | hz
      · exact hasym _ _ hc
      · by_contra hzx
        have hzx' : p z x = true := by
          cases hpz : p z x
          · exact absurd hpz hzx
          · rfl
        have : p z y = true := htrans z x y hzx' hc
        rw [hy z hz] at this
        exact Bool.noConfusion this
    · simp only [hc, if_false]
      refine List.Pairwise.cons ?_ (ih hys)
      intro z hz
      rcases mem_insDesc p x ys z hz with rfl | hz
      · simpa using hc
      · exact hy z hz

theorem sortDesc_pairwise (p : α → α → Bool)
    (hasym : ∀ a b, p a b = true → p b a = false)
    (htrans : ∀ a b c, p a b = true → p b c = true → p a c = true)
    (l : List α) :
    (sortDesc p l).Pairwise (fun a b => p b a = false) := by
  suffices h : ∀ acc : List α, acc.Pairwise (fun a b => p b a = false) →
      (l.foldl (fun acc x => insDesc p x acc) acc).Pairwise
        (fun a b => p b a = false) by
    exact h [] (by simp)
  induction l with
  | nil => exact fun acc h => h
  | cons x xs ih =>
    intro acc hacc
    simp only [List.foldl_cons]
    exact ih (insDesc p x acc) (insDesc_pairwise p hasym htrans x acc hacc)

theorem insDesc_head (f : α → ℚ) (x : α) (l : List α) :
    (insDesc (fun a b => decide (f b < f a)) x l).head? =
      some (match l.head? with
            | none => x
            | some y => if f y < f x then x else y) := by
  cases l with
  | nil => simp [insDesc]
  | cons y ys =>
    simp only [insDesc]
    by_cases hc : f y < f x <;> simp [hc]

theorem sortDesc_head (f : α → ℚ) (l : List α) :
    (sortDesc (fun a b => decide (f b < f a)) l).head? = firstMaxBy f l := by
  induction l using List.reverseRecOn with
  | nil => simp [sortDesc, firstMaxBy]
  | append_singleton l x ih =>
    have hfold : sortDesc (fun a b => decide (f b < f a)) (l ++ [x]) =
        insDesc (fun a b => decide (f b < f a)) x
          (sortDesc (fun a b => decide (f b < f a)) l) := by
      simp [sortDesc, List.foldl_append]
    rw [hfold, insDesc_head, firstMaxBy_snoc, ih]

/-! ## Deduplication invariants -/

theorem dedupe_fold_invariant (items : List Item) :
    ∀ (done : List Item) (m : List (String × Item)),
      (∀ p ∈ m, p.1 = dedupeKeyOf p.2) →
      ((m.map (·.1)).Nodup) →
      (∀ k, m.lookup k =
        firstMaxBy (·.score) (done.filter (fun it => dedupeKeyOf it = k))) →
      (∀ p ∈ items.foldl dedupeStep m, p.1 = dedupeKeyOf p.2) ∧
      (((items.foldl dedupeStep m).map (·.1)).Nodup) ∧
      (∀ k, (items.foldl dedupeStep m).lookup k =
        firstMaxBy (·.score)
          ((done ++ items).filter (fun it => dedupeKeyOf it = k))) := by
  induction items with
  | nil =>
    intro done m h1 h2 h3
    simp only [List.foldl_nil, List.append_nil]
    exact ⟨h1, h2, h3⟩
  | cons it rest ih =>
    intro done m h1 h2 h3
    simp only [List.foldl_cons]
    have hfilter_ne : ∀ k, k ≠ dedupeKeyOf it →
        (done ++ [it]).filter (fun x => dedupeKeyOf x = k) =
          done.filter (fun x => dedupeKeyOf x = k) := by
      intro k hk
      rw [List.filter_append]
      have : [it].filter (fun x => dedupeKeyOf x = k) = [] := by
        simp [Ne.symm hk]
      rw [this, List.append_nil]
    have step : (∀ p ∈ dedupeStep m it, p.1 = dedupeKeyOf p.2) ∧
        (((dedupeStep m it).map (·.1)).Nodup) ∧
        (∀ k, (dedupeStep m it).lookup k =
          firstMaxBy (·.score)
            ((done ++ [it]).filter (fun x => dedupeKeyOf x = k))) := by
      cases hLook : m.lookup (dedupeKeyOf it) with
      | none =>
        have he : dedupeStep m it = mapSet m (dedupeKeyOf it) it := by
          simp only [dedupeStep]
          rw [hLook]
        rw [he]
        refine ⟨?_, ?_, ?_⟩
        · intro p hp
          rcases mem_mapSet m _ it p hp with rfl | hp
          · rfl
          · exact h1 p hp
        · rw [keys_mapSet, hLook]
          simp only [Option.isSome_none, Bool.false_eq_true, if_false]
          rw [List.nodup_append]
          refine ⟨h2, List.nodup_singleton _, ?_⟩
          intro a ha hb
          simp only [List.mem_singleton] at hb
          subst hb
          exact lookup_none_not_mem m _ hLook ha
        · intro k
          by_cases hk : k = dedupeKeyOf it
          · subst hk
            rw [lookup_mapSet_self]
            have hdone : done.filter (fun x => dedupeKeyOf x = dedupeKeyOf it) = [] := by
              have := h3 (dedupeKeyOf it)
              rw [hLook] at this
              exact (firstMaxBy_eq_none_iff _ _).mp this.symm
            rw [List.filter_append, hdone]
            simp [firstMaxBy]
          · rw [lookup_mapSet_ne _ _ _ _ hk, h3 k, hfilter_ne k hk]
      | some prev =>
        have hprev : firstMaxBy (·.score)
            (done.filter (fun x => dedupeKeyOf x = dedupeKeyOf it)) = some prev := by
          rw [← h3 (dedupeKeyOf it), hLook]
        have hsnoc : firstMaxBy (·.score)
            ((done ++ [it]).filter (fun x => dedupeKeyOf x = dedupeKeyOf it)) =
              some (if prev.score < it.score then it else prev) := by
          rw [List.filter_append]
          have hone : [it].filter (fun x => dedupeKeyOf x = dedupeKeyOf it) = [it] := by
            simp
          rw [hone, firstMaxBy_snoc, hprev]
        by_cases hlt : prev.score < it.score
        · have he : dedupeStep m it = mapSet m (dedupeKeyOf it) it := by
            unfold dedupeStep
            rw [hLook]
            simp [hlt]
          rw [he]
          refine ⟨?_, ?_, ?_⟩
          · intro p hp
            rcases mem_mapSet m _ it p hp with rfl | hp
            · rfl
            · exact h1 p hp
          · rw [keys_mapSet, hLook]
            simpa using h2
          · intro k
            by_cases hk : k = dedupeKeyOf it
            · subst hk
              rw [lookup_mapSet_self, hsnoc, if_pos hlt]
            · rw [lookup_mapSet_ne _ _ _ _ hk, h3 k, hfilter_ne k hk]
        · have he : dedupeStep m it = m := by
            unfold dedupeStep
            rw [hLook]
            simp [hlt]
          rw [he]
          refine ⟨h1, h2, ?_⟩
          intro k
          by_cases hk : k = dedupeKeyOf it
          · subst hk
            rw [hLook, hsnoc, if_neg hlt]
          · rw [h3 k, hfilter_ne k hk]
    obtain ⟨s1, s2, s3⟩ := step
    have := ih (done ++ [it]) (dedupeStep m it) s1 s2 s3
    simpa [List.append_assoc] using this

theorem dedupe_full_invariant (items : List Item) :
    (∀ p ∈ items.foldl dedupeStep [], p.1 = dedupeKeyOf p.2) ∧
    (((items.foldl dedupeStep []).map (·.1)).Nodup) ∧
    (∀ k, (items.foldl dedupeStep []).lookup k =
      firstMaxBy (·.score) (items.filter (fun it => dedupeKeyOf it = k))) := by
  have := dedupe_fold_invariant items [] []
    (by simp) (by simp) (by intro k; simp [List.lookup, firstMaxBy])
  simpa using this

theorem dedupe_pairwise_keys (items : List Item) :
    (dedupeByTeamNameScore items).Pairwise
      (fun a b => dedupeKeyOf a ≠ dedupeKeyOf b) := by
  obtain ⟨h1, h2, _⟩ := dedupe_full_invariant items
  unfold dedupeByTeamNameScore
  rw [List.pairwise_map]
  have hpw : (items.foldl dedupeStep []).Pairwise (fun p q => p.1 ≠ q.1) :=
    (List.pairwise_map).mp h2
  refine hpw.imp_of_mem ?_
  intro p q hp hq hne
  rw [← h1 p hp, ← h1 q hq]
  exact hne

theorem dedupe_group (items : List Item) (r : Item)
    (hr : r ∈ dedupeByTeamNameScore items) :
    firstMaxBy (·.score) (items.filter (fun it => dedupeKeyOf it = dedupeKeyOf r)) =
      some r := by
  obtain ⟨h1, h2, h3⟩ := dedupe_full_invariant items
  unfold dedupeByTeamNameScore at hr
  obtain ⟨p, hp, hpr⟩ := List.mem_map.mp hr
  have hkey : p.1 = dedupeKeyOf r := hpr ▸ h1 p hp
  have : (items.foldl dedupeStep []).lookup (dedupeKeyOf r) = some r := by
    have hmem : (dedupeKeyOf r, r) ∈ items.foldl dedupeStep [] := by
      have : p = (dedupeKeyOf r, r) := by
        obtain ⟨pk, pv⟩ := p
        simp only at hpr hkey
        rw [hkey, hpr]
      exact this ▸ hp
    exact mem_lookup_of_nodup _ _ _ h2 hmem
  rw [h3 (dedupeKeyOf r)] at this
  exact this

theorem dedupe_mem (items : List Item) (r : Item)
    (hr : r ∈ dedupeByTeamNameScore items) : r ∈ items := by
  have := firstMaxBy_mem _ _ _ (dedupe_group items r hr)
  exact (List.mem_filter.mp this).1

theorem dedupe_covers (items : List Item) (it : Item) (hit : it ∈ items) :
    ∃ r ∈ dedupeByTeamNameScore items, dedupeKeyOf r = dedupeKeyOf it := by
  obtain ⟨h1, h2, h3⟩ := dedupe_full_invariant items
  have hmem : it ∈ items.filter (fun x => dedupeKeyOf x = dedupeKeyOf it) :=
    List.mem_filter.mpr ⟨hit, by simp⟩
  have hne : items.filter (fun x => dedupeKeyOf x = dedupeKeyOf it) ≠ [] :=
    List.ne_nil_of_mem hmem
  cases hfm : firstMaxBy (·.score)
      (items.filter (fun x => dedupeKeyOf x = dedupeKeyOf it)) with
  | none => exact absurd ((firstMaxBy_eq_none_iff _ _).mp hfm) hne
  | some r =>
    have hlook : (items.foldl dedupeStep []).lookup (dedupeKeyOf it) = some r :=
      (h3 (dedupeKeyOf it)).trans hfm
    have hrmem : r ∈ dedupeByTeamNameScore items := by
      unfold dedupeByTeamNameScore
      exact List.mem_map.mpr ⟨(dedupeKeyOf it, r), lookup_some_mem _ _ _ hlook, rfl⟩
    have hrk : dedupeKeyOf r = dedupeKeyOf it := by
      have := firstMaxBy_mem _ _ _ hfm
      have := (List.mem_filter.mp this).2
      simpa using this
    exact ⟨r, hrmem, hrk⟩

theorem dedupeStep_length_le (m : List (String × Item)) (it : Item) :
    (dedupeStep m it).length ≤ m.length + 1 := by
  unfold dedupeStep
  cases hLook : m.lookup (dedupeKeyOf it) with
  | none => exact length_mapSet_le _ _ _
  | some prev =>
    by_cases hlt : prev.score < it.score
    · simpa [hlt] using length_mapSet_le m (dedupeKeyOf it) it
    · simp [hlt]

theorem dedupe_length_le (items : List Item) :
    (dedupeByTeamNameScore items).length ≤ items.length := by
  unfold dedupeByTeamNameScore
  rw [List.length_map]
  suffices h : ∀ m : List (String × Item),
      (items.foldl dedupeStep m).length ≤ m.length + items.length by
    simpa using h []
  induction items with
  | nil => simp
  | cons it rest ih =>
    intro m
    simp only [List.foldl_cons, List.length_cons]
    calc (rest.foldl dedupeStep (dedupeStep m it)).length
        ≤ (dedupeStep m it).length + rest.length := ih _
      _ ≤ (m.length + 1) + rest.length :=
          Nat.add_le_add_right (dedupeStep_length_le m it) _
      _ = m.length + (rest.length + 1) := by omega

/-! ## MMR lemmas -/

theorem firstArgmax_go_lt (f : α → ℚ) :
    ∀ (xs : List α) (i bi : Nat) (bv : ℚ), bi < i →
      firstArgmax.go f xs i bi bv < i + xs.length := by
  intro xs
  induction xs with
  | nil =>
    intro i bi bv h
    simpa [firstArgmax.go] using h
  | cons y ys ih =>
    intro i bi bv h
    simp only [firstArgmax.go, List.length_cons]
    by_cases hc : bv < f y
    · rw [if_pos hc]
      have := ih (i + 1) i (f y) (Nat.lt_succ_self i)
      omega
    · rw [if_neg hc]
      have := ih (i + 1) bi bv (Nat.lt_succ_of_lt h)
      omega

theorem firstArgmax_lt (f : α → ℚ) (x : α) (xs : List α) :
    firstArgmax f x xs < xs.length + 1 := by
  have := firstArgmax_go_lt f xs 1 0 (f x) Nat.zero_lt_one
  unfold firstArgmax
  omega

theorem perm_getD_cons_eraseIdx (l : List α) (j : Nat) (d : α)
    (h : j < l.length) : l.Perm (l.getD j d :: l.eraseIdx j) := by
  induction l generalizing j with
  | nil => simp at h
  | cons x xs ih =>
    cases j with
    | zero => simp [List.eraseIdx]
    | succ j =>
      simp only [List.length_cons, Nat.succ_lt_succ_iff] at h
      have hxs := ih j h
      have h1 : (x :: xs).getD (j + 1) d = xs.getD j d := by simp [List.getD]
      have h2 : (x :: xs).eraseIdx (j + 1) = x :: xs.eraseIdx j := rfl
      rw [h1, h2]
      exact (hxs.cons x).trans (List.Perm.swap _ _ _)

theorem mmrLoop_perm (lam : ℚ) (stopLen : Nat) :
    ∀ (fuel : Nat) (pt : List (List String)) (acc : List Item)
      (rem : List (Item × List String)),
      ((mmrLoop lam stopLen fuel pt acc rem).1 ++
        (mmrLoop lam stopLen fuel pt acc rem).2.map (·.1)).Perm
        (acc.reverse ++ rem.map (·.1)) := by
  intro fuel
  induction fuel with
  | zero => intro pt acc rem; simp [mmrLoop]
  | succ fuel ih =>
    intro pt acc rem
    simp only [mmrLoop]
    by_cases hcond : acc.length + 1 < stopLen
    · rw [if_pos hcond]
      cases rem with
      | nil => simp
      | cons r rs =>
        have hperm := ih ((((r :: rs).getD (firstArgmax (mmrValue lam pt) r rs) r).2) :: pt)
          ((((r :: rs).getD (firstArgmax (mmrValue lam pt) r rs) r).1) :: acc)
          ((r :: rs).eraseIdx (firstArgmax (mmrValue lam pt) r rs))
        refine hperm.trans ?_
        have hj : firstArgmax (mmrValue lam pt) r rs < (r :: rs).length := by
          simpa using firstArgmax_lt (mmrValue lam pt) r rs
        have hsplit :
            (r :: rs).Perm
              ((r :: rs).getD (firstArgmax (mmrValue lam pt) r rs) r ::
                (r :: rs).eraseIdx (firstArgmax (mmrValue lam pt) r rs)) :=
          perm_getD_cons_eraseIdx _ _ _ hj
        simp only [List.reverse_cons, List.append_assoc]
        refine List.Perm.append_left acc.reverse ?_
        have hmap := (hsplit.map (fun p : Item × List String => p.1)).symm
        simpa using hmap
    · rw [if_neg hcond]

theorem mmr_perm (items : List Item) (K : Nat) (lam : ℚ) :
    (mmrDiversifyOrder items K lam).Perm items := by
  unfold mmrDiversifyOrder
  by_cases hle : items.length ≤ 1
  · rw [if_pos hle]
  · rw [if_neg hle]
    have hsortperm := sortDesc_perm
      (fun a b : Item × List String => decide (b.1.score < a.1.score))
      (items.map (fun it => (it, itemTokens it.order)))
    have hmapid : (items.map (fun it => (it, itemTokens it.order))).map
        (fun p : Item × List String => p.1) = items := by
      rw [List.map_map]
      exact List.map_id' items
    cases hs : sortDesc (fun a b : Item × List String => decide (b.1.score < a.1.score))
        (items.map (fun it => (it, itemTokens it.order))) with
    | nil => exact List.Perm.refl items
    | cons first remaining =>
      rw [hs] at hsortperm
      have hloop := mmrLoop_perm lam (min K items.length) items.length
        [first.2] [] remaining
      have hrest := sortDesc_perm
        (fun a b : Item × List String => decide (b.1.score < a.1.score))
        (mmrLoop lam (min K items.length) items.length [first.2] [] remaining).2
      have hloop' : ((mmrLoop lam (min K items.length) items.length [first.2] []
            remaining).1 ++
          (mmrLoop lam (min K items.length) items.length [first.2] []
            remaining).2.map (fun p : Item × List String => p.1)).Perm
          (remaining.map (fun p : Item × List String => p.1)) := by
        simpa using hloop
      -- replace the sorted rest by the unsorted rest
      have step1 :
          ((mmrLoop lam (min K items.length) items.length [first.2] [] remaining).1 ++
            (sortDesc (fun a b : Item × List String => decide (b.1.score < a.1.score))
              (mmrLoop lam (min K items.length) items.length [first.2] []
                remaining).2).map (fun p : Item × List String => p.1)).Perm
            (remaining.map (fun p : Item × List String => p.1)) :=
        (List.Perm.append_left _ (hrest.map _)).trans hloop'
      have hfinal : ((first :: remaining).map
          (fun p : Item × List String => p.1)).Perm items := by
        have hh := hsortperm.map (fun p : Item × List String => p.1)
        rwa [hmapid] at hh
      exact List.Perm.trans (step1.cons first.1) hfinal

theorem mmr_length (items : List Item) (K : Nat) (lam : ℚ) :
    (mmrDiversifyOrder items K lam).length = items.length :=
  (mmr_perm items K lam).length_eq

theorem mmr_head (items : List Item) (K : Nat) (lam : ℚ) :
    (mmrDiversifyOrder items K lam).head? = (finalSortSearch items).head? := by
  have hscore : scorePrec = fun a b : Item => decide (b.score < a.score) := rfl
  have hsearch : (finalSortSearch items).head? =
      firstMaxBy (fun it : Item => it.score) items := by
    unfold finalSortSearch
    rw [hscore]
    exact sortDesc_head (fun it : Item => it.score) items
  unfold mmrDiversifyOrder
  by_cases hle : items.length ≤ 1
  · rw [if_pos hle]
    cases items with
    | nil => simp [finalSortSearch, sortDesc]
    | cons x xs =>
      cases xs with
      | nil => simp [finalSortSearch, sortDesc, insDesc]
      | cons y ys => simp at hle
  · rw [if_neg hle]
    have hpairs := sortDesc_head (fun p : Item × List String => p.1.score)
      (items.map (fun it => (it, itemTokens it.order)))
    rw [firstMaxBy_map (fun p : Item × List String => p.1.score)
      (fun it => (it, itemTokens it.order)) items] at hpairs
    cases hs : sortDesc (fun a b : Item × List String => decide (b.1.score < a.1.score))
        (items.map (fun it => (it, itemTokens it.order))) with
    | nil =>
      rw [hs] at hpairs
      cases hm : firstMaxBy (fun it : Item => it.score) items with
      | none =>
        have : items = [] := (firstMaxBy_eq_none_iff _ _).mp hm
        simp [this] at hle
      | some m => simp [hm] at hpairs
    | cons first remaining =>
      rw [hs] at hpairs
      cases hm : firstMaxBy (fun a : Item => a.score) items with
      | none =>
        rw [hm] at hpairs
        simp at hpairs
      | some m =>
        rw [hm] at hpairs
        simp only [List.head?_cons] at hpairs
        have hfirst : first = (m, itemTokens m.order) := by
          simpa using hpairs
        rw [hsearch, hm, hfirst]
        simp

/-! ## String-order and comparator lemmas -/

theorem jsStrLt_irrefl (s : List Char) : jsStrLt s s = false := by
  induction s with
  | nil => rfl
  | cons c cs ih => simp [jsStrLt, ih]

theorem jsStrLt_asymm : ∀ a b : List Char,
    jsStrLt a b = true → jsStrLt b a = false
  | [], [], h => by simp [jsStrLt] at h
  | [], _ :: _, _ => rfl
  | _ :: _, [], h => by simp [jsStrLt] at h
  | x :: xs, y :: ys, h => by
    simp only [jsStrLt] at h ⊢
    by_cases hxy : x.toNat < y.toNat
    · rw [if_neg (by omega), if_pos hxy]
    · rw [if_neg hxy] at h
      by_cases hyx : y.toNat < x.toNat
      · rw [if_pos hyx] at h
        simp at h
      · rw [if_neg hyx] at h
        rw [if_neg hyx, if_neg hxy]
        exact jsStrLt_asymm xs ys h

theorem jsStrLt_trans : ∀ a b c : List Char,
    jsStrLt a b = true → jsStrLt b c = true → jsStrLt a c = true
  | [], [], _, h1, _ => by simp [jsStrLt] at h1
  | [], _ :: _, [], _, h2 => by simp [jsStrLt] at h2
  | [], _ :: _, _ :: _, _, _ => rfl
  | _ :: _, [], _, h1, _ => by simp [jsStrLt] at h1
  | _ :: _, _ :: _, [], _, h2 => by simp [jsStrLt] at h2
  | x :: xs, y :: ys, z :: zs, h1, h2 => by
    simp only [jsStrLt] at h1 h2 ⊢
    by_cases hxy : x.toNat < y.toNat
    · by_cases hyz : y.toNat < z.toNat
      · rw [if_pos (by omega)]
      · rw [if_neg hyz] at h2
        by_cases hzy : z.toNat < y.toNat
        · rw [if_pos hzy] at h2
          simp at h2
        · rw [if_pos (by omega)]
    · rw [if_neg hxy] at h1
      by_cases hyx : y.toNat < x.toNat
      · rw [if_pos hyx] at h1
        simp at h1
      · rw [if_neg hyx] at h1
        by_cases hyz : y.toNat < z.toNat
        · rw [if_pos (by omega)]
        · rw [if_neg hyz] at h2
          by_cases hzy : z.toNat < y.toNat
          · rw [if_pos hzy] at h2
            simp at h2
          · rw [if_neg hzy] at h2
            rw [if_neg (by omega), if_neg (by omega)]
            exact jsStrLt_trans xs ys zs h1 h2

theorem scorePrec_asymm (a b : Item) :
    scorePrec a b = true → scorePrec b a = false := by
  intro h
  simp only [scorePrec, decide_eq_true_eq] at h
  simp only [scorePrec, decide_eq_false_iff_not]
  exact lt_asymm h

theorem scorePrec_trans (a b c : Item) :
    scorePrec a b = true → scorePrec b c = true → scorePrec a c = true := by
  intro h1 h2
  simp only [scorePrec, decide_eq_true_eq] at h1 h2 ⊢
  exact lt_trans h2 h1

theorem pagedPrec_asymm (a b : Item) :
    pagedPrec a b = true → pagedPrec b a = false := by
  intro h
  cases hb : pagedPrec b a with
  | false => rfl
  | true =>
    exfalso
    simp only [pagedPrec, Bool.or_eq_true, decide_eq_true_eq,
      Bool.and_eq_true] at h hb
    rcases h with h1 | ⟨heq, hlt⟩
    · rcases hb with h2 | ⟨heq2, _⟩
      · exact lt_asymm h1 h2
      · exact ne_of_lt h1 heq2
    · rcases hb with h2 | ⟨_, hlt2⟩
      · rw [heq] at h2
        exact lt_irrefl _ h2
      · have := jsStrLt_asymm _ _ hlt
        rw [hlt2] at this
        exact Bool.noConfusion this

theorem pagedPrec_trans (a b c : Item) :
    pagedPrec a b = true → pagedPrec b c = true → pagedPrec a c = true := by
  intro h1 h2
  simp only [pagedPrec, Bool.or_eq_true, decide_eq_true_eq,
    Bool.and_eq_true] at h1 h2 ⊢
  rcases h1 with h1 | ⟨heq1, hlt1⟩
  · rcases h2 with h2 | ⟨heq2, _⟩
    · exact Or.inl (lt_trans h2 h1)
    · exact Or.inl (heq2 ▸ h1)
  · rcases h2 with h2 | ⟨heq2, hlt2⟩
    · exact Or.inl (heq1 ▸ h2)
    · exact Or.inr ⟨heq1.trans heq2, jsStrLt_trans _ _ _ hlt1 hlt2⟩

/-! ## Pipeline bookkeeping lemmas -/

theorem rerankItems_orders (tech : Bool) (qn : String) (qTokens phrases : List String)
    (items : List Item) :
    (rerankItems tech qn qTokens phrases items).map (·.order) =
      items.map (·.order) := by
  unfold rerankItems
  rw [List.map_map]
  rfl

theorem prefersBoost_orders (qn : String) (qTokens : List String)
    (items : List Item) :
    (prefersBoost qn qTokens items).map (·.order) = items.map (·.order) := by
  unfold prefersBoost
  by_cases hp : prefersList qn qTokens = []
  · rw [if_pos hp]
  · rw [if_neg hp, List.map_map]
    rfl

theorem map_orders_pairwise_keys (l l' : List Item)
    (h : l.map (·.order) = l'.map (·.order))
    (hpw : l.Pairwise (fun a b => dedupeKeyOf a ≠ dedupeKeyOf b)) :
    l'.Pairwise (fun a b => dedupeKeyOf a ≠ dedupeKeyOf b) := by
  have hkey : ∀ x : Item, dedupeKeyOf x =
      (fun o : Order => if jsLower (jsTrim o.TeamName) ≠ "" then jsLower (jsTrim o.TeamName)
        else stableKeyFromOrder o) x.order := fun x => rfl
  have h1 : (l.map (·.order)).Pairwise
      (fun a b : Order =>
        (if jsLower (jsTrim a.TeamName) ≠ "" then jsLower (jsTrim a.TeamName)
          else stableKeyFromOrder a) ≠
        (if jsLower (jsTrim b.TeamName) ≠ "" then jsLower (jsTrim b.TeamName)
          else stableKeyFromOrder b)) := by
    rw [List.pairwise_map]
    exact hpw
  rw [h] at h1
  rw [List.pairwise_map] at h1
  exact h1

theorem pagedProcess_length (rawQ : String) (hits : List Item) (PS : Nat) :
    (pagedProcess rawQ hits PS).length = (dedupeByTeamNameScore hits).length := by
  unfold pagedProcess
  set D := dedupeByTeamNameScore hits with hD
  set R := rerankItems true (jsLower (normalizeQuery (jsTrim rawQ)))
    ((runsOf isTokChar (jsLower (normalizeQuery (jsTrim rawQ))).data).map String.mk)
    (extractExactPhrases (jsTrim rawQ)) D with hR
  set P := prefersBoost (jsLower (normalizeQuery (jsTrim rawQ)))
    ((runsOf isTokChar (jsLower (normalizeQuery (jsTrim rawQ))).data).map String.mk) R with hP
  have hRlen : R.length = D.length := by
    rw [hR]
    unfold rerankItems
    exact List.length_map _ _
  have hPlen : P.length = R.length := by
    rw [hP]
    unfold prefersBoost
    by_cases hpe : prefersList (jsLower (normalizeQuery (jsTrim rawQ)))
        ((runsOf isTokChar (jsLower (normalizeQuery (jsTrim rawQ))).data).map
          String.mk) = []
    · rw [if_pos hpe]
    · rw [if_neg hpe]
      exact List.length_map _ _
  have hSlen : (finalSortPaged P).length = P.length :=
    (sortDesc_perm _ _).length_eq
  by_cases hdiv : shouldDiversify (finalSortPaged P) 8 0.55
  · rw [if_pos hdiv, mmr_length, hSlen, hPlen, hRlen]
  · rw [if_neg hdiv, hSlen, hPlen, hRlen]

theorem pagedProcess_pairwise_keys (rawQ : String) (hits : List Item) (PS : Nat) :
    (pagedProcess rawQ hits PS).Pairwise
      (fun a b => dedupeKeyOf a ≠ dedupeKeyOf b) := by
  unfold pagedProcess
  set qn := jsLower (normalizeQuery (jsTrim rawQ)) with hqn
  set qTokens := (runsOf isTokChar (jsLower (normalizeQuery (jsTrim rawQ))).data).map
    String.mk with hqT
  set phrases := extractExactPhrases (jsTrim rawQ) with hph
  set D := dedupeByTeamNameScore hits with hD
  set R := rerankItems true qn qTokens phrases D with hR
  set P := prefersBoost qn qTokens R with hP
  have hsymm : ∀ {x y : Item},
      dedupeKeyOf x ≠ dedupeKeyOf y → dedupeKeyOf y ≠ dedupeKeyOf x :=
    fun h => Ne.symm h
  have hDpw := dedupe_pairwise_keys hits
  have hRpw : R.Pairwise (fun a b => dedupeKeyOf a ≠ dedupeKeyOf b) :=
    map_orders_pairwise_keys D R (rerankItems_orders _ _ _ _ _).symm hDpw
  have hPpw : P.Pairwise (fun a b => dedupeKeyOf a ≠ dedupeKeyOf b) :=
    map_orders_pairwise_keys R P (prefersBoost_orders _ _ _).symm hRpw
  have hSpw : (finalSortPaged P).Pairwise
      (fun a b => dedupeKeyOf a ≠ dedupeKeyOf b) :=
    ((sortDesc_perm pagedPrec P).pairwise_iff fun h => Ne.symm h).mpr hPpw
  by_cases hdiv : shouldDiversify (finalSortPaged P) 8 0.55
  · rw [if_pos hdiv]
    exact ((mmr_perm (finalSortPaged P) (min PS (finalSortPaged P).length)
      0.7).pairwise_iff fun h => Ne.symm h).mpr hSpw
  · rw [if_neg hdiv]
    exact hSpw

theorem pagedProcess_orders_sub (rawQ : String) (hits : List Item) (PS : Nat) :
    ∀ it ∈ pagedProcess rawQ hits PS, ∃ a ∈ hits, it.order = a.order := by
  unfold pagedProcess
  set qn := jsLower (normalizeQuery (jsTrim rawQ)) with hqn
  set qTokens := (runsOf isTokChar (jsLower (normalizeQuery (jsTrim rawQ))).data).map
    String.mk with hqT
  set phrases := extractExactPhrases (jsTrim rawQ) with hph
  set D := dedupeByTeamNameScore hits with hD
  set R := rerankItems true qn qTokens phrases D with hR
  set P := prefersBoost qn qTokens R with hP
  have hmemP : ∀ it ∈ P, ∃ a ∈ hits, it.order = a.order := by
    intro it hit
    have h1 : it.order ∈ P.map (·.order) := List.mem_map.mpr ⟨it, hit, rfl⟩
    rw [hP, prefersBoost_orders, hR, rerankItems_orders] at h1
    obtain ⟨d, hd, hdo⟩ := List.mem_map.mp h1
    exact ⟨d, dedupe_mem hits d hd, hdo.symm⟩
  intro it hit
  by_cases hdiv : shouldDiversify (finalSortPaged P) 8 0.55
  · rw [if_pos hdiv] at hit
    have h1 := (mmr_perm (finalSortPaged P) (min PS (finalSortPaged P).length)
      0.7).mem_iff.mp hit
    have h2 := (sortDesc_perm pagedPrec P).mem_iff.mp h1
    exact hmemP it h2
  · rw [if_neg hdiv] at hit
    exact hmemP it ((sortDesc_perm pagedPrec P).mem_iff.mp hit)

/-! ## Pagination slicing lemmas -/

theorem take_drop_drop_eq (L : List α) (n m : Nat) (h : n ≤ m) :
    (L.drop n).take (m - n) ++ L.drop m = L.drop n := by
  have h1 : L.drop m = (L.drop n).drop (m - n) := by
    rw [List.drop_drop]
    congr 1
    omega
  rw [h1]
  exact List.take_append_drop _ _

/-- Following `next_cursor` from page `p` over a handler that serves
fixed slices of `L` yields exactly the tail of `L` from the start of
page `p`. -/
theorem collect_slices (L : List Item) (PS : Nat) (hPS : 1 ≤ PS)
    (handler : Nat → PagedResponse)
    (hhandler : ∀ p, 1 ≤ p → handler p =
      ⟨200, pagedSlice L p PS, pagedCursor L p PS, L.length⟩) :
    ∀ (fuel p : Nat), 1 ≤ p → L.length ≤ (p - 1) * PS + fuel * PS →
      collectPages handler fuel p = L.drop ((p - 1) * PS) := by
  intro fuel
  induction fuel with
  | zero =>
    intro p hp hlen
    simp only [collectPages]
    symm
    apply List.drop_eq_nil_of_le
    omega
  | succ fuel ih =>
    intro p hp hlen
    obtain ⟨q, rfl⟩ : ∃ q, p = q + 1 := ⟨p - 1, by omega⟩
    have hmul1 : (q + 1) * PS = q * PS + PS := Nat.succ_mul q PS
    have hmul2 : (fuel + 1) * PS = fuel * PS + PS := Nat.succ_mul fuel PS
    simp only [Nat.add_sub_cancel] at hlen ⊢
    simp only [collectPages, hhandler (q + 1) (by omega), pagedSlice,
      pagedCursor, Nat.add_sub_cancel]
    by_cases hstart : q * PS < min ((q + 1) * PS) L.length
    · rw [if_pos hstart]
      by_cases hmore : min ((q + 1) * PS) L.length < L.length
      · rw [if_pos hmore]
        have hmin : min ((q + 1) * PS) L.length = (q + 1) * PS := by omega
        have harith : (q + 2 - 1) * PS = (q + 1) * PS := by norm_num
        have hnext := ih (q + 2) (by omega) (by rw [harith]; omega)
        rw [harith] at hnext
        show (L.drop (q * PS)).take ((q + 1) * PS ⊓ L.length - q * PS) ++
            collectPages handler fuel (q + 1 + 1) = L.drop (q * PS)
        rw [hnext, hmin]
        exact take_drop_drop_eq L _ _ (by omega)
      · rw [if_neg hmore]
        have hstop : min ((q + 1) * PS) L.length = L.length := by omega
        rw [List.append_nil, hstop]
        have hlendrop : (L.drop (q * PS)).length = L.length - q * PS :=
          List.length_drop _ _
        rw [← hlendrop]
        exact List.take_length _
    · rw [if_neg hstart]
      have hmore : ¬ min ((q + 1) * PS) L.length < L.length := by omega
      rw [if_neg hmore]
      simp only [List.append_nil]
      symm
      exact List.drop_eq_nil_of_le (by omega)

/-! ## Digest bounds and hex injectivity -/

theorem add32_lt (a b : Nat) : add32 a b < M32 :=
  Nat.mod_lt _ (by decide)

theorem shaBlock_words_lt (hs block : List Nat) :
    ∀ w ∈ shaBlock hs block, w < M32 := by
  intro w hw
  unfold shaBlock at hw
  obtain ⟨p, _, rfl⟩ := List.mem_map.mp hw
  exact add32_lt _ _

theorem shaBlock_length_le (hs block : List Nat) :
    (shaBlock hs block).length ≤ hs.length := by
  unfold shaBlock
  rw [List.length_map, List.length_zip]
  exact Nat.min_le_left _ _

theorem foldl_shaBlock_inv (chunks : List (List Nat)) :
    ∀ hs : List Nat, (∀ w ∈ hs, w < M32) → hs.length ≤ 8 →
      (∀ w ∈ chunks.foldl shaBlock hs, w < M32) ∧
        (chunks.foldl shaBlock hs).length ≤ 8 := by
  induction chunks with
  | nil => exact fun hs h1 h2 => ⟨h1, h2⟩
  | cons c cs ih =>
    intro hs h1 h2
    simp only [List.foldl_cons]
    exact ih (shaBlock hs c) (shaBlock_words_lt hs c)
      (le_trans (shaBlock_length_le hs c) h2)

theorem sha256words_bounds (msg : List Nat) :
    (∀ w ∈ sha256words msg, w < M32) ∧ (sha256words msg).length ≤ 8 := by
  unfold sha256words
  exact foldl_shaBlock_inv _ shaH0 (by decide) (by decide)

theorem foldl_word_lt (l : List Nat) :
    ∀ (acc B : Nat), (∀ w ∈ l, w < M32) → acc < B →
      l.foldl (fun a w => a * M32 + w) acc < B * M32 ^ l.length := by
  induction l with
  | nil =>
    intro acc B _ hacc
    simpa using hacc
  | cons w ws ih =>
    intro acc B hl hacc
    simp only [List.foldl_cons, List.length_cons]
    have hw : w < M32 := hl w (List.mem_cons_self _ _)
    have hstep : acc * M32 + w < B * M32 := by
      have h1 : acc + 1 ≤ B := hacc
      calc acc * M32 + w < acc * M32 + M32 := by omega
        _ = (acc + 1) * M32 := by ring
        _ ≤ B * M32 := Nat.mul_le_mul_right _ h1
    have := ih (acc * M32 + w) (B * M32)
      (fun x hx => hl x (List.mem_cons_of_mem _ hx)) hstep
    calc ws.foldl (fun a w => a * M32 + w) (acc * M32 + w)
        < B * M32 * M32 ^ ws.length := this
      _ = B * M32 ^ (ws.length + 1) := by ring

theorem sha256nat_lt (msg : List Nat) : sha256nat msg < M32 ^ 8 := by
  unfold sha256nat
  obtain ⟨h1, h2⟩ := sha256words_bounds msg
  have := foldl_word_lt (sha256words msg) 0 1 h1 (by omega)
  calc (sha256words msg).foldl (fun a w => a * M32 + w) 0
      < 1 * M32 ^ (sha256words msg).length := this
    _ = M32 ^ (sha256words msg).length := by ring
    _ ≤ M32 ^ 8 := Nat.pow_le_pow_right (by decide) h2

theorem sha_trunc_lt (msg : List Nat) : sha256nat msg >>> 128 < 16 ^ 32 := by
  rw [Nat.shiftRight_eq_div_pow]
  have h := sha256nat_lt msg
  have hM : M32 ^ 8 = 2 ^ 128 * 2 ^ 128 := by decide
  rw [Nat.div_lt_iff_lt_mul (by positivity)]
  have h16 : (16 : Nat) ^ 32 = 2 ^ 128 := by decide
  rw [h16]
  omega

theorem length_toHexFixed (w : Nat) : ∀ n, (toHexFixed w n).length = w := by
  induction w with
  | zero => intro n; rfl
  | succ w ih =>
    intro n
    simp only [toHexFixed, List.length_append, List.length_cons,
      List.length_nil, ih]

theorem hexDigitChar_inj :
    ∀ a < 16, ∀ b < 16, hexDigitChar a = hexDigitChar b → a = b := by
  decide

theorem toHexFixed_inj (w : Nat) :
    ∀ m n, m < 16 ^ w → n < 16 ^ w → toHexFixed w m = toHexFixed w n → m = n := by
  induction w with
  | zero =>
    intro m n hm hn _
    simp only [pow_zero, Nat.lt_one_iff] at hm hn
    omega
  | succ w ih =>
    intro m n hm hn he
    simp only [toHexFixed] at he
    obtain ⟨h1, h2⟩ := List.append_inj he
      (by rw [length_toHexFixed, length_toHexFixed])
    have hm16 : m / 16 < 16 ^ w := by
      rw [Nat.div_lt_iff_lt_mul (by norm_num)]
      calc m < 16 ^ (w + 1) := hm
        _ = 16 ^ w * 16 := by rw [pow_succ]
    have hn16 : n / 16 < 16 ^ w := by
      rw [Nat.div_lt_iff_lt_mul (by norm_num)]
      calc n < 16 ^ (w + 1) := hn
        _ = 16 ^ w * 16 := by rw [pow_succ]
    have hdiv := ih _ _ hm16 hn16 h1
    have hmod : m % 16 = n % 16 := by
      have hc : hexDigitChar (m % 16) = hexDigitChar (n % 16) :=
        List.singleton_injective h2
      exact hexDigitChar_inj _ (Nat.mod_lt _ (by norm_num)) _
        (Nat.mod_lt _ (by norm_num)) hc
    omega

theorem stableId_congr (o1 o2 : Order)
    (h : stableKeyFromOrder o1 = stableKeyFromOrder o2) :
    stableIdForOrder o1 = stableIdForOrder o2 := by
  unfold stableIdForOrder
  rw [h]

theorem stableId_inj_of_hash (o1 o2 : Order)
    (h : sha256nat (utf8Bytes (stableKeyFromOrder o1)) >>> 128 ≠
         sha256nat (utf8Bytes (stableKeyFromOrder o2)) >>> 128) :
    stableIdForOrder o1 ≠ stableIdForOrder o2 := by
  intro he
  apply h
  unfold stableIdForOrder at he
  have hdata := congrArg String.data he
  simp only at hdata
  exact toHexFixed_inj 32 _ _ (sha_trunc_lt _) (sha_trunc_lt _) hdata

/-! ## The paged handler under a pool that fits one retrieval window -/

theorem pageSizeOf_pos (s : Nat) : 1 ≤ pageSizeOf s := by
  unfold pageSizeOf
  split <;> omega

theorem pageSizeOf_le (s : Nat) : pageSizeOf s ≤ 50 := by
  unfold pageSizeOf
  split <;> omega

theorem searchPaged_stablePool_page (rawQ : String) (allHits : List Item)
    (pageSizeReq : Nat) (hq : normalizeQuery (jsTrim rawQ) ≠ "")
    (hpool : allHits.length ≤ 2 * pageSizeOf pageSizeReq) (p : Nat)
    (hp : 1 ≤ p) :
    searchPagedHandler true rawQ allHits p pageSizeReq =
      ⟨200,
        pagedSlice (pagedProcess rawQ allHits (pageSizeOf pageSizeReq)) p
          (pageSizeOf pageSizeReq),
        pagedCursor (pagedProcess rawQ allHits (pageSizeOf pageSizeReq)) p
          (pageSizeOf pageSizeReq),
        (pagedProcess rawQ allHits (pageSizeOf pageSizeReq)).length⟩ := by
  have hPS1 := pageSizeOf_pos pageSizeReq
  have hPS50 := pageSizeOf_le pageSizeReq
  have hmax : max 1 p = p := max_eq_right hp
  have htake : allHits.take (candidatesKOf (max 1 p)
      (pageSizeOf pageSizeReq)) = allHits := by
    apply List.take_of_length_le
    unfold candidatesKOf
    have hmul : pageSizeOf pageSizeReq * 2 ≤
        max 1 p * (pageSizeOf pageSizeReq * 2) := by
      have h1 : 1 * (pageSizeOf pageSizeReq * 2) ≤
          max 1 p * (pageSizeOf pageSizeReq * 2) :=
        Nat.mul_le_mul_right _ (le_max_left 1 p)
      omega
    have hassoc : max 1 p * pageSizeOf pageSizeReq * 2 =
        max 1 p * (pageSizeOf pageSizeReq * 2) := by ring
    rw [hassoc]
    refine le_min ?_ ?_
    · omega
    · omega
  unfold searchPagedHandler
  rw [if_neg hq, Bool.not_true, if_neg (by decide : ¬ (false = true)),
    htake, hmax]

/-! ## Remaining cache lemmas -/

theorem not_mem_lookup_none (m : List (String × β)) (k : String)
    (h : k ∉ m.map (·.1)) : m.lookup k = none := by
  induction m with
  | nil => rfl
  | cons p rest ih =>
    obtain ⟨k₀, v₀⟩ := p
    simp only [List.map_cons, List.mem_cons, not_or] at h
    have hb : (k == k₀) = false := by simp [Ne.symm (fun he => h.1 he.symm)]
    simp only [List.lookup, hb]
    exact ih h.2

theorem mapSet_absent (m : List (String × β)) (k : String) (v : β)
    (h : m.lookup k = none) : mapSet m k v = m ++ [(k, v)] := by
  induction m with
  | nil => rfl
  | cons p rest ih =>
    obtain ⟨k₀, v₀⟩ := p
    by_cases h₀ : k₀ = k
    · subst h₀
      simp [List.lookup] at h
    · have hb : (k == k₀) = false := by simp [Ne.symm h₀]
      simp only [List.lookup, hb] at h
      simp [mapSet, h₀, ih h]

theorem lookup_append_of_not_mem (l l2 : List (String × β)) (k : String)
    (h : k ∉ l.map (·.1)) : (l ++ l2).lookup k = l2.lookup k := by
  induction l with
  | nil => rfl
  | cons p rest ih =>
    obtain ⟨k₀, v₀⟩ := p
    simp only [List.map_cons, List.mem_cons, not_or] at h
    have hb : (k == k₀) = false := by simp [Ne.symm (fun he => h.1 he.symm)]
    simp only [List.cons_append, List.lookup, hb]
    exact ih h.2

theorem embGet_none_not_mem {α : Type} (cache : List (String × EmbEntry α))
    (key : String) (now : Nat)
    (h : (_embGet cache key now).1 = none) :
    key ∉ (_embGet cache key now).2.map (·.1) := by
  cases hLook : cache.lookup key with
  | none =>
    have he : _embGet cache key now = (none, cache) := by
      unfold _embGet
      rw [hLook]
    rw [he]
    exact lookup_none_not_mem cache key hLook
  | some e =>
    by_cases hexp : now < e.exp
    · have he : _embGet cache key now = (some e.vec, cache) := by
        unfold _embGet
        rw [hLook]
        simp [hexp]
      rw [he] at h
      simp at h
    · have he : _embGet cache key now =
          (none, cache.filter (fun p => p.1 ≠ key)) := by
        unfold _embGet
        rw [hLook]
        simp [hexp]
      rw [he]
      intro hmem
      obtain ⟨p, hp, hpk⟩ := List.mem_map.mp hmem
      have := (List.mem_filter.mp hp).2
      simp [hpk] at this

/-! ## Claim theorems -/

/-- **C5 counterexample.**  The claim says `normalizeQuery` returns a
non-empty string for every non-empty input, but a whitespace-only input
is non-empty and normalizes to the empty string: the final fallback is
the *trimmed* raw input. -/
theorem C5_counterexample : (" " : String) ≠ "" ∧ normalizeQuery " " = "" := by
  constructor
  · decide
  · decide

/-- **C5 (amended).**  For every input whose *trimmed* form is
non-empty, `normalizeQuery` returns a non-empty string; and whenever
stopword filtering empties the token list the result is the unfiltered
normalized (trimmed) base string, falling back to the trimmed raw input
— so "i need a team" normalizes to the unfiltered fallback without
returning empty. -/
theorem C5_theorem (q : String) (h : jsTrim q ≠ "") :
    normalizeQuery q ≠ "" ∧
      (normFiltered q = [] →
        normalizeQuery q =
          if jsTrim (String.mk (normBase q)) ≠ ""
          then jsTrim (String.mk (normBase q)) else jsTrim q) := by
  constructor
  · unfold normalizeQuery
    by_cases h1 : jsTrim (String.intercalate " " (normFiltered q)) ≠ ""
    · rw [if_pos h1]
      exact h1
    · rw [if_neg h1]
      by_cases h2 : jsTrim (String.mk (normBase q)) ≠ ""
      · rw [if_pos h2]
        exact h2
      · rw [if_neg h2]
        exact h
  · intro hf
    unfold normalizeQuery
    have h0 : jsTrim (String.intercalate " " (normFiltered q)) = "" := by
      rw [hf]
      rfl
    rw [h0]
    simp

/-- **C5 witness**: the all-stopword query of the scenario. -/
theorem C5_witness :
    normalizeQuery "i need a team" ≠ "" ∧
      normalizeQuery "i need a team" =
        (if jsTrim (String.mk (normBase "i need a team")) ≠ ""
         then jsTrim (String.mk (normBase "i need a team"))
         else jsTrim "i need a team") :=
  by
  have h := C5_theorem "i need a team" (by decide)
  exact ⟨h.1, h.2 (by decide)⟩

/-- **C9 (confirmed).**  When the query normalizes to the empty string,
or any of the vector env vars is missing (`vectorsEnabled` false), all
three search endpoints answer HTTP 200 with an empty result. -/
theorem C9_theorem (rawQ qdrantUrl qdrantApiKey jinaApiKey : String)
    (hits allHits : List Item) (pageReq pageSizeReq : Nat)
    (h : normalizeQuery (jsTrim rawQ) = "" ∨
      vectorsEnabled qdrantUrl qdrantApiKey jinaApiKey = false) :
    postSearchHandler (vectorsEnabled qdrantUrl qdrantApiKey jinaApiKey)
        rawQ hits = (200, []) ∧
    getSearchHandler (vectorsEnabled qdrantUrl qdrantApiKey jinaApiKey)
        rawQ hits = (200, []) ∧
    searchPagedHandler (vectorsEnabled qdrantUrl qdrantApiKey jinaApiKey)
        rawQ allHits pageReq pageSizeReq = ⟨200, [], none, 0⟩ := by
  rcases h with hq | he
  · exact ⟨by simp [postSearchHandler, hq], by simp [getSearchHandler, hq],
      by simp [searchPagedHandler, hq]⟩
  · exact ⟨by simp [postSearchHandler, he], by simp [getSearchHandler, he],
      by simp [searchPagedHandler, he]⟩

/-- **C9 witness**: missing configuration (all env vars empty). -/
theorem C9_witness :
    postSearchHandler (vectorsEnabled "" "" "") "growth" [] = (200, []) ∧
    getSearchHandler (vectorsEnabled "" "" "") "growth" [] = (200, []) ∧
    searchPagedHandler (vectorsEnabled "" "" "") "growth" [] 1 10 =
      ⟨200, [], none, 0⟩ :=
  C9_theorem "growth" "" "" "" [] [] 1 10 (Or.inr (by decide))

/-- **C10 (confirmed).**  Every text `embedTextCached` sends to the
embedding provider is the composite cache key
`` `${model}|${dim}|${trim(q)}` `` — never the query alone (the key is
strictly longer than the trimmed query); on a miss the provider is
called exactly once with that key, the result is the embedding of the
key, and it is cached under the same key. -/
theorem C10_theorem {α : Type} (model : String) (dim : Nat) (ttl now : Nat)
    (embed : String → α) (cache : List (String × EmbEntry α)) (q : String) :
    (∀ t ∈ (embedTextCached model dim ttl now embed cache q).2.2,
      t = embKey model dim q) ∧
    ((_embGet cache (embKey model dim q) now).1 = none →
      (embedTextCached model dim ttl now embed cache q).2.2 =
        [embKey model dim q] ∧
      (embedTextCached model dim ttl now embed cache q).1 =
        embed (embKey model dim q) ∧
      (embedTextCached model dim ttl now embed cache q).2.1.lookup
          (embKey model dim q) =
        some ⟨embed (embKey model dim q), now + ttl⟩) ∧
    embKey model dim q ≠ jsTrim q := by
  refine ⟨?_, ?_, ?_⟩
  · intro t ht
    unfold embedTextCached at ht
    rcases hEG : _embGet cache (embKey model dim q) now with ⟨o, c'⟩
    rw [hEG] at ht
    cases o with
    | some hit => simp at ht
    | none => simpa using ht
  · intro hmiss
    have hnotmem := embGet_none_not_mem cache (embKey model dim q) now hmiss
    unfold embedTextCached
    rcases hEG : _embGet cache (embKey model dim q) now with ⟨o, c'⟩
    rw [hEG] at hmiss hnotmem
    cases o with
    | some hit => simp at hmiss
    | none =>
      simp only at hnotmem
      refine ⟨rfl, rfl, ?_⟩
      show (_embSet c' (embKey model dim q) (embed (embKey model dim q))
          now ttl).lookup (embKey model dim q) =
        some ⟨embed (embKey model dim q), now + ttl⟩
      unfold _embSet
      have habs : mapSet c' (embKey model dim q)
          (⟨embed (embKey model dim q), now + ttl⟩ : EmbEntry α) =
          c' ++ [(embKey model dim q, ⟨embed (embKey model dim q), now + ttl⟩)] :=
        mapSet_absent _ _ _ (not_mem_lookup_none _ _ hnotmem)
      rw [habs]
      by_cases hlen : 1000 <
          (c' ++ [(embKey model dim q,
            (⟨embed (embKey model dim q), now + ttl⟩ : EmbEntry α))]).length
      · rw [if_pos hlen]
        cases c' with
        | nil => simp at hlen
        | cons p rest =>
          simp only [List.cons_append, List.tail_cons]
          have hrest : embKey model dim q ∉ rest.map (·.1) := by
            intro hmem
            exact hnotmem (by simp [hmem])
          rw [lookup_append_of_not_mem rest _ _ hrest]
          simp [List.lookup]
      · rw [if_neg hlen]
        rw [lookup_append_of_not_mem c' _ _ hnotmem]
        simp [List.lookup]
  · intro he
    have hlen := congrArg String.length he
    simp only [embKey, String.length_append] at hlen
    have h1 : ("|" : String).length = 1 := rfl
    rw [h1] at hlen
    omega

/-- **C10 witness**: an empty cache; the provider sees the composite
key of the trimmed query. -/
theorem C10_witness :
    (_embGet ([] : List (String × EmbEntry Nat)) (embKey "jina-v3" 1024 " seo ")
        0).1 = none ∧
    ((embedTextCached "jina-v3" 1024 120000 0 String.length
        ([] : List (String × EmbEntry Nat)) " seo ").2.2 =
      [embKey "jina-v3" 1024 " seo "] ∧
     (embedTextCached "jina-v3" 1024 120000 0 String.length
        ([] : List (String × EmbEntry Nat)) " seo ").1 =
      ("jina-v3|1024|seo" : String).length ∧
     (embedTextCached "jina-v3" 1024 120000 0 String.length
        ([] : List (String × EmbEntry Nat)) " seo ").2.1.lookup
        (embKey "jina-v3" 1024 " seo ") =
      some ⟨("jina-v3|1024|seo" : String).length, 120000⟩) ∧
    embKey "jina-v3" 1024 " seo " ≠ jsTrim " seo " := by
  have h := C10_theorem "jina-v3" 1024 120000 0 String.length
    ([] : List (String × EmbEntry Nat)) " seo "
  refine ⟨by decide, ?_, h.2.2⟩
  have hkey : embKey "jina-v3" 1024 " seo " = "jina-v3|1024|seo" := by decide
  have h2 := h.2.1 (by decide)
  rw [← hkey]
  exact h2

/-- **C6 counterexample.**  A change to a tuple field (the team name's
case and surrounding spaces) does *not* change the id, because the key
is built from the lowercased-trimmed tuple — so "any change to one of
those tuple fields changes the id" is false as stated. -/
theorem C6_counterexample :
    ({ TeamName := "Acme" } : Order).TeamName ≠
      ({ TeamName := " ACME " } : Order).TeamName ∧
    stableIdForOrder { TeamName := "Acme" } =
      stableIdForOrder { TeamName := " ACME " } := by
  constructor
  · decide
  · exact stableId_congr _ _ (by decide)

/-- **C6 (amended).**  `stableIdForOrder` is deterministic: records with
equal lowercased-trimmed tuples get the same 32-hex-character id; and a
change that alters the joined normalized key changes the id whenever
the truncated SHA-256 digests differ (truncated-hex encoding is
injective). -/
theorem C6_theorem (o1 o2 : Order) :
    (normTupleOf o1 = normTupleOf o2 →
      stableIdForOrder o1 = stableIdForOrder o2) ∧
    (stableIdForOrder o1).length = 32 ∧
    (sha256nat (utf8Bytes (stableKeyFromOrder o1)) >>> 128 ≠
        sha256nat (utf8Bytes (stableKeyFromOrder o2)) >>> 128 →
      stableIdForOrder o1 ≠ stableIdForOrder o2) := by
  refine ⟨?_, ?_, stableId_inj_of_hash o1 o2⟩
  · intro h
    apply stableId_congr
    unfold stableKeyFromOrder
    rw [h]
  · show (String.mk (toHexFixed 32
        (sha256nat (utf8Bytes (stableKeyFromOrder o1)) >>> 128))).length = 32
    show (toHexFixed 32
        (sha256nat (utf8Bytes (stableKeyFromOrder o1)) >>> 128)).length = 32
    exact length_toHexFixed 32 _

/-- **C6 witness**: equal normalized tuples give equal ids; different
digests give different ids. -/
theorem C6_witness :
    stableIdForOrder { TeamName := "aaa" } =
      stableIdForOrder { TeamName := " AAA " } ∧
    stableIdForOrder { TeamName := "aaa" } ≠
      stableIdForOrder { TeamName := "bbb" } :=
  ⟨(C6_theorem { TeamName := "aaa" } { TeamName := " AAA " }).1 (by decide),
   (C6_theorem { TeamName := "aaa" } { TeamName := "bbb" }).2.2 (by decide)⟩

/-- **C4 (confirmed).**  `dedupeByTeamNameScore` never increases
cardinality; its output has exactly one representative per dedup key
(normalized team name, stable key when the name is blank); every input
key is represented; and each representative is the *first* input item
of its group attaining the group's maximal `__score` (so ties keep the
first-seen item, deterministically). -/
theorem C4_theorem (items : List Item) :
    (dedupeByTeamNameScore items).length ≤ items.length ∧
    (dedupeByTeamNameScore items).Pairwise
      (fun a b => dedupeKeyOf a ≠ dedupeKeyOf b) ∧
    (∀ it ∈ items, ∃ r ∈ dedupeByTeamNameScore items,
      dedupeKeyOf r = dedupeKeyOf it) ∧
    (∀ r ∈ dedupeByTeamNameScore items,
      firstMaxBy (·.score)
        (items.filter (fun it => dedupeKeyOf it = dedupeKeyOf r)) = some r) :=
  ⟨dedupe_length_le items, dedupe_pairwise_keys items,
   dedupe_covers items, dedupe_group items⟩

/-- **C4 witness**: three same-name items; the first maximal-score one
is the representative. -/
theorem C4_witness :
    (dedupeByTeamNameScore [dup1, dup2, dup3]).length ≤ 3 ∧
    firstMaxBy (·.score)
      ([dup1, dup2, dup3].filter
        (fun it => dedupeKeyOf it = dedupeKeyOf dup2)) = some dup2 :=
  ⟨(C4_theorem [dup1, dup2, dup3]).1,
   (C4_theorem [dup1, dup2, dup3]).2.2.2 dup2 (by decide)⟩

/-- **C7 (confirmed).**  For every non-empty item list and every `K`
and `λ`, MMR diversification has the same head as the plain
score-descending order, and that head's fused score is maximal. -/
theorem C7_theorem (items : List Item) (K : Nat) (lam : ℚ)
    (_hne : items ≠ []) :
    (mmrDiversifyOrder items K lam).head? = (finalSortSearch items).head? ∧
    ∀ h, (mmrDiversifyOrder items K lam).head? = some h →
      ∀ it ∈ items, it.score ≤ h.score := by
  refine ⟨mmr_head items K lam, ?_⟩
  intro h hh it hit
  rw [mmr_head items K lam] at hh
  have hscore : scorePrec = fun a b : Item => decide (b.score < a.score) := rfl
  have hs : (finalSortSearch items).head? =
      firstMaxBy (fun it : Item => it.score) items := by
    unfold finalSortSearch
    rw [hscore]
    exact sortDesc_head (fun it : Item => it.score) items
  rw [hs] at hh
  exact firstMaxBy_le _ _ _ hh it hit

/-- **C7 witness**: the top-scored item stays first. -/
theorem C7_witness :
    (mmrDiversifyOrder [mmrLow, mmrHigh] 5 (7/10)).head? =
      (finalSortSearch [mmrLow, mmrHigh]).head? ∧
    mmrLow.score ≤ mmrHigh.score := by
  have h := C7_theorem [mmrLow, mmrHigh] 5 (7/10) (by decide)
  exact ⟨h.1, h.2 mmrHigh (by decide) mmrLow (by decide)⟩

theorem total_estimate_mk (a : Nat) (b : List Item) (c : Option Nat) (d : Nat) :
    (PagedResponse.mk a b c d).total_estimate = d := rfl

/-- **C8 (confirmed).**  For a non-empty normalized query, the paged
handler clamps the page size into `[1, 50]`, asks the vector store for
exactly `min 1000 (page × pageSize × 2)` candidates, and reports as
`total_estimate` the size of the deduplicated pool built from exactly
those retrieved candidates. -/
theorem C8_theorem (rawQ : String) (allHits : List Item)
    (pageReq pageSizeReq : Nat)
    (hq : normalizeQuery (jsTrim rawQ) ≠ "") :
    1 ≤ pageSizeOf pageSizeReq ∧ pageSizeOf pageSizeReq ≤ 50 ∧
    candidatesKOf (max 1 pageReq) (pageSizeOf pageSizeReq) =
      min 1000 (max 1 pageReq * pageSizeOf pageSizeReq * 2) ∧
    (searchPagedHandler true rawQ allHits pageReq pageSizeReq).total_estimate =
      (dedupeByTeamNameScore (allHits.take
        (candidatesKOf (max 1 pageReq) (pageSizeOf pageSizeReq)))).length := by
  refine ⟨pageSizeOf_pos _, pageSizeOf_le _, rfl, ?_⟩
  unfold searchPagedHandler
  rw [if_neg hq, Bool.not_true, if_neg (by decide : ¬ (false = true)), total_estimate_mk]
  exact pagedProcess_length _ _ _

/-- **C8 witness**: page 3 with requested size 10. -/
theorem C8_witness :
    1 ≤ pageSizeOf 10 ∧ pageSizeOf 10 ≤ 50 ∧
    candidatesKOf (max 1 3) (pageSizeOf 10) =
      min 1000 (max 1 3 * pageSizeOf 10 * 2) ∧
    (searchPagedHandler true "seo" [] 3 10).total_estimate =
      (dedupeByTeamNameScore (([] : List Item).take
        (candidatesKOf (max 1 3) (pageSizeOf 10)))).length :=
  C8_theorem "seo" [] 3 10 (by decide)

/-- Dedupe keys depend only on the payload record, not the score. -/
theorem dedupeKeyOf_congr (a b : Item) (h : a.order = b.order) :
    dedupeKeyOf a = dedupeKeyOf b := by
  unfold dedupeKeyOf
  rw [h]

/-- **C1 counterexample.**  In the spec scenario (query "SEO", Team A
with Type "SEO, Content", Team B with Type "PR", both at semantic score
0.5) the fused score of Team A is 1.06, not the 0.92 the claim asserts:
the claim omits the +0.06 keyword-overlap and +0.08 acronym terms that
also fire on this input. -/
theorem C1_counterexample :
    (searchPipeline false "SEO" [hitA, hitB]).map
        (fun it => (it.order.TeamName, it.score)) =
      [("Team A", 53/50), ("Team B", 9/50)] ∧ (53/50 : ℚ) ≠ 92/100 := by
  constructor
  · decide
  · decide

/-- **C1 (amended).**  In the spec scenario Team A fuses to
0.5 + 0.30 (tag hit) + 0.06 (keyword overlap) + 0.08 (acronym) + 0.12
(SEO anchor) = 1.06 and Team B to 0.5 − 0.10 (guardrail) − 0.22 (anchor
penalty) = 0.18, and Team A ranks above Team B in the output. -/
theorem C1_theorem :
    (searchPipeline false "SEO" [hitA, hitB]).map
        (fun it => (it.order.TeamName, it.score)) =
      [("Team A", 1/2 + 30/100 + 6/100 + 8/100 + 12/100),
       ("Team B", 1/2 - 10/100 - 22/100)] := by
  decide

/-- **C2 counterexample.**  Two candidates tie on every fusion signal;
`POST /search` keeps them in retrieval order ("bbb" before "aaa") even
though the StableIdentity of "aaa" orders strictly before that of
"bbb": the `POST /search` / `GET /search` comparator has no
StableIdentity tiebreak, so tied candidates follow the retrieval order
rather than the claimed stable order. -/
theorem C2_counterexample :
    (searchPipeline false "zzz" [tieB, tieA]).map
        (fun it => (it.order.TeamName, it.score)) =
      [("bbb", 2/5), ("aaa", 2/5)] ∧
    jsStrLt (stableIdForOrder tieA.order).data
      (stableIdForOrder tieB.order).data = true := by
  constructor
  · decide
  · decide

/-- **C2 (amended).**  For every candidate list, `POST /search` and
`GET /search` sort descending by fused score only — ties keep the
incoming order of the stable sort — while `POST /searchPaged` sorts
descending by fused score with ties broken by ascending StableIdentity
string order; only the paged endpoint is order-deterministic under
reordering of tied inputs. -/
theorem C2_theorem (items : List Item) :
    (finalSortSearch items).Perm items ∧
    (finalSortSearch items).Pairwise (fun a b => scorePrec b a = false) ∧
    (finalSortPaged items).Perm items ∧
    (finalSortPaged items).Pairwise (fun a b => pagedPrec b a = false) := by
  unfold finalSortSearch finalSortPaged
  exact ⟨sortDesc_perm _ _,
    sortDesc_pairwise _ scorePrec_asymm scorePrec_trans _,
    sortDesc_perm _ _,
    sortDesc_pairwise _ pagedPrec_asymm pagedPrec_trans _⟩

/-- **C3 counterexample.**  Query "seo" over a four-candidate snapshot
with page size 1: page 1 and page 2 both serve the record named "n1"
(the same StableIdentity on both pages), and the two pages report
different total_estimate values (2 and 4), because each page
re-retrieves a pool of `page × PAGE_SIZE × 2` candidates and re-slices
the re-ranked list. -/
theorem C3_counterexample :
    searchPagedHandler true "seo" [pg1, pg2, pg3, pg4] 1 1 =
      ⟨200, [⟨pg1.order, 29/50⟩], some 2, 2⟩ ∧
    searchPagedHandler true "seo" [pg1, pg2, pg3, pg4] 2 1 =
      ⟨200, [⟨pg1.order, 29/50⟩], some 3, 4⟩ := by
  constructor
  · decide
  · decide

/-- **C3 (amended).**  When the whole snapshot fits the first retrieval
window (at most `2 × PAGE_SIZE` candidates), every page sees the same
pool, and concatenating the pages obtained by following `next_cursor`
from page 1 yields exactly the processed pool: exactly `total_estimate`
items, with pairwise distinct StableIdentities (absent hash or join
collisions in the pool).  With a growing pool the counterexample shows
that items repeat across pages. -/
theorem C3_theorem (rawQ : String) (allHits : List Item) (pageSizeReq : Nat)
    (hq : normalizeQuery (jsTrim rawQ) ≠ "")
    (hpool : allHits.length ≤ 2 * pageSizeOf pageSizeReq)
    (hnc : ∀ a ∈ allHits, ∀ b ∈ allHits, dedupeKeyOf a ≠ dedupeKeyOf b →
      stableIdForOrder a.order ≠ stableIdForOrder b.order) :
    collectPages (fun p => searchPagedHandler true rawQ allHits p pageSizeReq)
        (allHits.length + 1) 1 =
      pagedProcess rawQ allHits (pageSizeOf pageSizeReq) ∧
    (collectPages (fun p => searchPagedHandler true rawQ allHits p pageSizeReq)
        (allHits.length + 1) 1).length =
      (searchPagedHandler true rawQ allHits 1 pageSizeReq).total_estimate ∧
    (collectPages (fun p => searchPagedHandler true rawQ allHits p pageSizeReq)
        (allHits.length + 1) 1).Pairwise
      (fun a b => stableIdForOrder a.order ≠ stableIdForOrder b.order) := by
  have hPS1 : 1 ≤ pageSizeOf pageSizeReq := pageSizeOf_pos _
  have hhandler : ∀ p, 1 ≤ p →
      searchPagedHandler true rawQ allHits p pageSizeReq =
        ⟨200, pagedSlice (pagedProcess rawQ allHits (pageSizeOf pageSizeReq)) p
            (pageSizeOf pageSizeReq),
          pagedCursor (pagedProcess rawQ allHits (pageSizeOf pageSizeReq)) p
            (pageSizeOf pageSizeReq),
          (pagedProcess rawQ allHits (pageSizeOf pageSizeReq)).length⟩ :=
    fun p hp => searchPaged_stablePool_page rawQ allHits pageSizeReq hq hpool p hp
  have hLlen : (pagedProcess rawQ allHits (pageSizeOf pageSizeReq)).length ≤
      allHits.length := by
    rw [pagedProcess_length]
    exact dedupe_length_le allHits
  have hbound : (pagedProcess rawQ allHits (pageSizeOf pageSizeReq)).length ≤
      (1 - 1) * pageSizeOf pageSizeReq +
        (allHits.length + 1) * pageSizeOf pageSizeReq := by
    have hb := Nat.le_mul_of_pos_right (allHits.length + 1) hPS1
    omega
  have hcollect := collect_slices
    (pagedProcess rawQ allHits (pageSizeOf pageSizeReq))
    (pageSizeOf pageSizeReq) hPS1 _ hhandler (allHits.length + 1) 1
    (by omega) hbound
  have h0 : (1 - 1) * pageSizeOf pageSizeReq = 0 := by norm_num
  rw [h0, List.drop_zero] at hcollect
  refine ⟨hcollect, ?_, ?_⟩
  · rw [hcollect, hhandler 1 (by omega), total_estimate_mk]
  · rw [hcollect]
    refine List.Pairwise.imp_of_mem ?_
      (pagedProcess_pairwise_keys rawQ allHits (pageSizeOf pageSizeReq))
    intro a b ha hb hab
    obtain ⟨a2, ha2, hao⟩ :=
      pagedProcess_orders_sub rawQ allHits (pageSizeOf pageSizeReq) a ha
    obtain ⟨b2, hb2, hbo⟩ :=
      pagedProcess_orders_sub rawQ allHits (pageSizeOf pageSizeReq) b hb
    rw [hao, hbo]
    refine hnc a2 ha2 b2 hb2 ?_
    intro hkeq
    exact hab (((dedupeKeyOf_congr a a2 hao).trans hkeq).trans
      (dedupeKeyOf_congr b b2 hbo).symm)

/-- **C3 witness**: a two-candidate snapshot served at page size 50. -/
theorem C3_witness :
    collectPages (fun p => searchPagedHandler true "seo" [pw1, pw2] p 50) 3 1 =
      pagedProcess "seo" [pw1, pw2] (pageSizeOf 50) ∧
    (collectPages (fun p => searchPagedHandler true "seo" [pw1, pw2] p 50)
        3 1).length =
      (searchPagedHandler true "seo" [pw1, pw2] 1 50).total_estimate ∧
    (collectPages (fun p => searchPagedHandler true "seo" [pw1, pw2] p 50)
        3 1).Pairwise
      (fun a b => stableIdForOrder a.order ≠ stableIdForOrder b.order) :=
  C3_theorem "seo" [pw1, pw2] 50 (by decide) (by decide) (by decide)


end Collty
